import Mathlib

/-!
# Shallow embedding of the pg-strom shared-memory buffer allocator

This file models `src/next/shmbuf.c`: a segmented buddy allocator over
POSIX shared-memory objects.  Conventions used throughout:

* Machine integers become `Nat`; addresses are byte offsets from the start
  of the reserved virtual range; a chunk is identified by its byte offset
  inside its segment.
* Struct layout follows LP64: `offsetof(shmBufferChunk, data)` is 40
  (16-byte `dlist_node`, 8-byte `size_t required`, 4-byte `uint32 mclass`,
  4-byte `uint32 magic_head`, 8-byte segment pointer), and the tail magic
  occupies 4 bytes right after the payload.
* `dlist` free lists become Lean lists of chunk offsets; `dlist_push_tail`
  appends, `dlist_push_head` conses, `dlist_pop_head_node` takes the head.
  The C test `chunk->chain.prev && chunk->chain.next` ("is this chunk
  linked into a free list?") becomes the boolean field `linked`.
* `ereport(ERROR, ...)`, `elog(ERROR/FATAL, ...)` and a failing `Assert`
  become `Except.error` values (`Err.outOfMemory`, `Err.tooLarge`,
  `Err.assertFailed`); `Assert` is modelled as an active check, i.e. the
  assert-enabled build of PostgreSQL.  A process that spins forever on a
  non-recursive `slock_t` it already holds dies in PostgreSQL's
  stuck-spinlock PANIC; that crash is the distinguished outcome
  `Err.stuckSpinlock`.
* Fixed-width arithmetic is kept at its source width where it can wrap:
  the `chunk_sz` sum of `__shmBufferAllocChunkFromSegment` is a `Size`
  (uint64, reduced mod `2 ^ 64`), and `seg->revision` is a
  `pg_atomic_uint32` (increments reduced mod `2 ^ 32`).
* Reads of memory where no chunk header lives (which would be undefined in
  C) are totalized: a buddy lookup that finds no chunk header is treated
  as non-mergeable.  All states exercised by the theorems below place a
  real header at every looked-up address.
-/

/-- `SHMBUF_CHUNK_MAGIC_CODE` (0xdeadbeaf), the guard word stored before and
after every chunk payload. -/
def SHMBUF_CHUNK_MAGIC_CODE : ℕ := 0xdeadbeaf

/-- `SHMBUF_CHUNKSZ_MIN_BIT`: smallest chunk class (128 bytes). -/
def SHMBUF_CHUNKSZ_MIN_BIT : ℕ := 7

/-- `SHMBUF_CHUNKSZ_MAX_BIT`: largest chunk class (4 GiB). -/
def SHMBUF_CHUNKSZ_MAX_BIT : ℕ := 32

/-- `offsetof(shmBufferChunk, data)` on LP64: the 40-byte chunk header that
precedes the payload. -/
def CHUNK_HEADER_SZ : ℕ := 40

/-- `sizeof(uint32)`: the trailing guard word after the payload. -/
def MAGIC_SZ : ℕ := 4

/-- `Size` (`size_t`, 64-bit) arithmetic wraps at `2 ^ 64`; the `chunk_sz`
sum of `__shmBufferAllocChunkFromSegment` is computed at this width. -/
def SIZE_MOD : ℕ := 2 ^ 64

/-- `pg_atomic_uint32` arithmetic wraps at `2 ^ 32`; `seg->revision` is
advanced with `pg_atomic_add_fetch_u32`/`pg_atomic_fetch_add_u32`. -/
def UINT32_MOD : ℕ := 2 ^ 32

/-- Helper loop for `get_next_log2`: find the least `k' ≥ k` with
`sz ≤ 2 ^ k'`, with enough fuel. -/
def glog2Go : ℕ → ℕ → ℕ → ℕ
  | 0, k, _ => k
  | fuel + 1, k, sz => if sz ≤ 2 ^ k then k else glog2Go fuel (k + 1) sz

/-- Modelled from the spec: `get_next_log2` (declared in `pg_strom.h`, not
part of the sources here) rounds a byte count up to "the smallest size
class ≥ this value", i.e. returns the least `k` with `sz ≤ 2 ^ k`. -/
def get_next_log2 (sz : ℕ) : ℕ := glog2Go sz 0 sz

/-! ## Local mapping table and the fault-driven attacher

`shmBufferLocalMap` is the per-process record of one slot's mapping state;
`shmBufferAttachSegmentOnDemand` is the SIGSEGV/SIGBUS handler restricted to
the interesting case: the faulting address lies inside the reserved range, so
a slot and its local map entry have been resolved.  The OS calls `munmap`,
`shm_open` and `mmap` are oracles (`Bool` arguments): `true` means the call
succeeds.  `AttachResult.deferred` is the `normal_crash` path that forwards
to the previously installed signal handler. -/

structure LocalMapState where
  revision : ℕ
  is_attached : Bool
deriving DecidableEq, Repr

inductive AttachResult
  | resumed
  | deferred
deriving DecidableEq, Repr

structure AttachOutcome where
  result : AttachResult
  lmap : LocalMapState
deriving DecidableEq, Repr

/-- The tail of the handler from `shm_open` on (lines 201-244 of shmbuf.c):
open the current backing object and map it; on success the handler just
releases the local-map mutex and returns (it writes nothing into `lmap`). -/
def attachOpenAndMap (lmap : LocalMapState) (shmOpenOk mmapOk : Bool) :
    AttachOutcome :=
  if !shmOpenOk then ⟨.deferred, lmap⟩
  else if !mmapOk then ⟨.deferred, lmap⟩
  else ⟨.resumed, lmap⟩

/-- `shmBufferAttachSegmentOnDemand`, for a fault inside the reserved range:
`segRev` is the value read from `seg->revision`, `lmap` the slot's local map
entry; `munmapOk`, `shmOpenOk`, `mmapOk` are the OS-call oracles. -/
def shmBufferAttachSegmentOnDemand (segRev : ℕ) (lmap : LocalMapState)
    (munmapOk shmOpenOk mmapOk : Bool) : AttachOutcome :=
  if segRev % 2 ≠ 1 then ⟨.deferred, lmap⟩
  else if lmap.is_attached then
    if lmap.revision = segRev then ⟨.deferred, lmap⟩
    else if !munmapOk then ⟨.deferred, lmap⟩
    else attachOpenAndMap { lmap with is_attached := false } shmOpenOk mmapOk
  else attachOpenAndMap lmap shmOpenOk mmapOk

/-! ## Per-segment buddy allocator state

A `SegState` models one `shmBufferSegment` together with the bytes of its
mapped range: `chunks` is the address-ordered list of chunk headers living
in the segment (both free and active), `freeLists` maps a size class
`mclass` to the list of offsets linked into `seg->free_chunks[mclass -
SHMBUF_CHUNKSZ_MIN_BIT]` (indexing by class rather than by `mindex`), `rev`
is `seg->revision` and `num_actives` counts the active chunks. -/

structure MChunk where
  off : ℕ
  mclass : ℕ
  required : ℕ
  magic_head : ℕ
  magic_tail : ℕ
  linked : Bool
deriving DecidableEq, Repr

structure SegState where
  rev : ℕ
  num_actives : ℕ
  chunks : List MChunk
  freeLists : ℕ → List ℕ

inductive Err
  | tooLarge
  | outOfMemory
  | assertFailed
  | stuckSpinlock
deriving DecidableEq, Repr

/-- Reading the chunk header stored at offset `o` of the segment. -/
def chunkAt : List MChunk → ℕ → Option MChunk
  | [], _ => none
  | c :: cs, o => if c.off = o then some c else chunkAt cs o

/-- In-place update of the chunk header at offset `o`. -/
def setChunk : List MChunk → ℕ → (MChunk → MChunk) → List MChunk
  | [], _, _ => []
  | c :: cs, o, f => (if c.off = o then f c else c) :: setChunk cs o f

/-- Erasing the chunk header at offset `o` (its bytes get absorbed into a
merged neighbour). -/
def removeChunk : List MChunk → ℕ → List MChunk
  | [], _ => []
  | c :: cs, o => if c.off = o then removeChunk cs o else c :: removeChunk cs o

/-- Replacing the chunk header at `o` by the headers of its two halves. -/
def replaceChunk2 : List MChunk → ℕ → MChunk → MChunk → List MChunk
  | [], _, _, _ => []
  | c :: cs, o, c1, c2 =>
    if c.off = o then c1 :: c2 :: replaceChunk2 cs o c1 c2
    else c :: replaceChunk2 cs o c1 c2

/-- Pointwise update of the free-list table. -/
def flSet (fl : ℕ → List ℕ) (i : ℕ) (l : List ℕ) : ℕ → List ℕ :=
  fun j => if j = i then l else fl j

/-- A freshly initialized free chunk header, as written by segment
initialization and by `shmBufferSplitChunk` (`memset` of the header, then
`mclass` and `magic_head`; the bytes at the tail-magic position are modelled
as 0). -/
def freshFreeChunk (o m : ℕ) : MChunk :=
  { off := o, mclass := m, required := 0,
    magic_head := SHMBUF_CHUNK_MAGIC_CODE, magic_tail := 0, linked := true }

/-- The segment-initialization loop of `shmBufferCreateSegment` (lines
361-379): starting from the largest class, greedily tile `[0, segSize)` with
maximal free chunks; `mclass` decreases whenever the next chunk would
overrun the tail.  Structural fuel stands in for the C `while`; callers pass
`segSize + 34`, which exceeds the number of iterations. -/
def initLoop (segSize : ℕ) : ℕ → ℕ → ℕ → List MChunk
  | 0, _, _ => []
  | fuel + 1, m, off =>
    if m < SHMBUF_CHUNKSZ_MIN_BIT then []
    else if off + 2 ^ m ≤ segSize then
      freshFreeChunk off m :: initLoop segSize fuel m (off + 2 ^ m)
    else initLoop segSize fuel (m - 1) off

def initSegmentChunks (segSize : ℕ) : List MChunk :=
  initLoop segSize (segSize + 34) SHMBUF_CHUNKSZ_MAX_BIT 0

/-- The free lists after initialization: each placed chunk was pushed to the
tail of its class's list, in placement order. -/
def initFreeLists (cs : List MChunk) : ℕ → List ℕ :=
  fun j => (cs.filter (fun c => c.mclass == j)).map MChunk.off

/-- The segment as `shmBufferCreateSegment` leaves it (chunk tiling, free
lists, `num_actives = 0`), with revision `rev`. -/
def freshSegState (segSize rev : ℕ) : SegState :=
  { rev := rev, num_actives := 0,
    chunks := initSegmentChunks segSize,
    freeLists := initFreeLists (initSegmentChunks segSize) }

/-- The pop-and-split tail of `shmBufferSplitChunk` (lines 462-482): pop the
head of the class-`mclass` free list, check the popped header (`Assert`),
and push the two `mclass - 1` halves to the tail of the next list down. -/
def splitPop (seg : SegState) (mclass : ℕ) : Except Err SegState :=
  match seg.freeLists mclass with
  | [] => .error .assertFailed
  | o :: rest =>
    match chunkAt seg.chunks o with
    | none => .error .assertFailed
    | some c =>
      if c.mclass = mclass ∧ c.magic_head = SHMBUF_CHUNK_MAGIC_CODE then
        let half := 2 ^ (mclass - 1)
        let c1 := freshFreeChunk o (mclass - 1)
        let c2 := freshFreeChunk (o + half) (mclass - 1)
        .ok { seg with
          chunks := replaceChunk2 seg.chunks o c1 c2,
          freeLists := flSet (flSet seg.freeLists mclass rest)
            (mclass - 1) (seg.freeLists (mclass - 1) ++ [o, o + half]) }
      else .error .assertFailed

/-- `shmBufferSplitChunk`: recursively refill the class-`mclass` free list
by splitting one class larger.  `.ok none` is the C `return false` ("no
room"); the entry `Assert(mclass > MIN_BIT && mclass <= MAX_BIT)` is the
first check.  Fuel is structural; callers pass 34 > the maximal recursion
depth. -/
def shmBufferSplitChunk : SegState → ℕ → ℕ → Except Err (Option SegState)
  | _, _, 0 => .error .assertFailed
  | seg, mclass, fuel + 1 =>
    if SHMBUF_CHUNKSZ_MIN_BIT < mclass ∧ mclass ≤ SHMBUF_CHUNKSZ_MAX_BIT then
      if (seg.freeLists mclass).isEmpty then
        if SHMBUF_CHUNKSZ_MAX_BIT ≤ mclass then .ok none
        else
          match shmBufferSplitChunk seg (mclass + 1) fuel with
          | .error e => .error e
          | .ok none => .ok none
          | .ok (some seg') => (splitPop seg' mclass).map some
      else (splitPop seg mclass).map some
    else .error .assertFailed

/-- The size class used for a request of `required` payload bytes: header +
payload + tail magic, rounded up, clamped below to `MIN_BIT` (lines
499-504).  The sum `chunk_sz = offsetof(shmBufferChunk, data) + required +
sizeof(uint32)` is computed in `Size` (uint64), so it wraps at `2 ^ 64`:
for `required ≥ 2 ^ 64 - 44` the code derives a small class instead of
rejecting the request. -/
def chunkClassOf (required : ℕ) : ℕ :=
  if get_next_log2 ((CHUNK_HEADER_SZ + required + MAGIC_SZ) % SIZE_MOD) < SHMBUF_CHUNKSZ_MIN_BIT
  then SHMBUF_CHUNKSZ_MIN_BIT
  else get_next_log2 ((CHUNK_HEADER_SZ + required + MAGIC_SZ) % SIZE_MOD)

/-- The pop-and-stamp tail of `__shmBufferAllocChunkFromSegment` (lines
518-530): pop the head of the class's free list, check the popped header
(`Assert`), unlink it (`memset` of `chain`), stamp `required` and the tail
magic, and bump `num_actives`.  On success the returned `ℕ` is the chunk's
offset. -/
def allocPopChunk (seg' : SegState) (mclass required : ℕ) :
    Except Err (Option (ℕ × SegState)) :=
  match seg'.freeLists mclass with
  | [] => .error .assertFailed
  | o :: rest =>
    match chunkAt seg'.chunks o with
    | none => .error .assertFailed
    | some c =>
      if c.mclass = mclass ∧ c.magic_head = SHMBUF_CHUNK_MAGIC_CODE then
        .ok (some (o, { seg' with
          chunks := setChunk seg'.chunks o (fun c => { c with
            linked := false, required := required,
            magic_tail := SHMBUF_CHUNK_MAGIC_CODE }),
          freeLists := flSet seg'.freeLists mclass rest,
          num_actives := seg'.num_actives + 1 }))
      else .error .assertFailed

/-- `__shmBufferAllocChunkFromSegment`: compute the class (raising
`tooLarge` above `MAX_BIT`), refill the free list by splitting if needed
(`.ok none` = C `return NULL`, "no room"), then pop and stamp a chunk. -/
def shmBufferAllocChunkFromSegment (seg : SegState) (required : ℕ) :
    Except Err (Option (ℕ × SegState)) :=
  if SHMBUF_CHUNKSZ_MAX_BIT < chunkClassOf required then .error .tooLarge
  else
    match (if (seg.freeLists (chunkClassOf required)).isEmpty
           then shmBufferSplitChunk seg (chunkClassOf required + 1) 34
           else .ok (some seg)) with
    | .error e => .error e
    | .ok none => .ok none
    | .ok (some seg') => allocPopChunk seg' (chunkClassOf required) required

/-- The coalescing loop of `shmBufferFreeChunk` (lines 610-652).  `off` and
`m` track the current chunk and its class; the buddy is found by toggling
bit `m` of the offset.  A buddy whose header is missing is treated as
non-mergeable (see the file comment); a buddy header with a bad magic is
the in-loop `Assert`.  Returns the final chunk offset and class together
with the updated memory and free lists. -/
def mergeLoop (segSize : ℕ) :
    List MChunk → (ℕ → List ℕ) → ℕ → ℕ → ℕ →
    Except Err (List MChunk × (ℕ → List ℕ) × ℕ × ℕ)
  | _, _, _, _, 0 => .error .assertFailed
  | chunks, fl, off, m, fuel + 1 =>
    if SHMBUF_CHUNKSZ_MAX_BIT < m then .ok (chunks, fl, off, m)
    else if off.testBit m = false then
      if segSize ≤ off + 2 ^ m then .ok (chunks, fl, off, m)
      else
        match chunkAt chunks (off + 2 ^ m) with
        | none => .ok (chunks, fl, off, m)
        | some bc =>
          if bc.magic_head ≠ SHMBUF_CHUNK_MAGIC_CODE then .error .assertFailed
          else if bc.mclass ≠ m ∨ bc.linked = false then .ok (chunks, fl, off, m)
          else
            mergeLoop segSize
              (setChunk (removeChunk chunks (off + 2 ^ m)) off
                (fun c => { c with mclass := m + 1 }))
              (flSet fl bc.mclass ((fl bc.mclass).erase (off + 2 ^ m)))
              off (m + 1) fuel
    else
      match chunkAt chunks (off - 2 ^ m) with
      | none => .ok (chunks, fl, off, m)
      | some bc =>
        if bc.magic_head ≠ SHMBUF_CHUNK_MAGIC_CODE then .error .assertFailed
        else if bc.mclass ≠ m ∨ bc.linked = false then .ok (chunks, fl, off, m)
        else
          mergeLoop segSize
            (setChunk (removeChunk chunks off) (off - 2 ^ m)
              (fun c => { c with mclass := m + 1 }))
            (flSet fl bc.mclass ((fl bc.mclass).erase (off - 2 ^ m)))
            (off - 2 ^ m) (m + 1) fuel

/-- `shmBufferFreeChunk`: validate the chunk header (the entry `Assert`
checks the class range and both guard magics), run the coalescing loop,
push the final chunk onto the head of its class's free list, and decrement
`num_actives`; the returned `Bool` tells the caller whether the segment
became fully free. -/
def shmBufferFreeChunk (segSize : ℕ) (seg : SegState) (off : ℕ) :
    Except Err (SegState × Bool) :=
  match chunkAt seg.chunks off with
  | none => .error .assertFailed
  | some c =>
    if SHMBUF_CHUNKSZ_MIN_BIT ≤ c.mclass ∧ c.mclass ≤ SHMBUF_CHUNKSZ_MAX_BIT ∧
       c.magic_head = SHMBUF_CHUNK_MAGIC_CODE ∧
       c.magic_tail = SHMBUF_CHUNK_MAGIC_CODE then
      match mergeLoop segSize seg.chunks seg.freeLists off c.mclass 34 with
      | .error e => .error e
      | .ok (chunks, fl, off', m') =>
        if seg.num_actives = 0 then .error .assertFailed
        else
          .ok ({ seg with
            chunks := setChunk chunks off' (fun c => { c with linked := true }),
            freeLists := flSet fl m' (off' :: fl m'),
            num_actives := seg.num_actives - 1 },
            seg.num_actives - 1 == 0)
    else .error .assertFailed

/-! ## Segment directory and the allocation facade

`Directory` models `shmBufferSegmentHead` plus the fixed segment array:
`activeList` and `freeList` hold segment ids (list head = `dlist` head),
`segs` is the `segments[]` array, and `segSize` is the global
`shmbuf_segment_size`.  The directory spinlock is modelled separately (see
the event traces below); the functional model describes the state
transformation of each operation. -/

structure Directory where
  segSize : ℕ
  activeList : List ℕ
  freeList : List ℕ
  segs : List SegState

/-- `SHMBUF_SEGMENT_EXISTS`: a slot revision denotes an existing segment
iff it is odd. -/
def SHMBUF_SEGMENT_EXISTS (revision : ℕ) : Bool := revision % 2 = 1

/-- The revision of slot `id` (0 if `id` is out of range). -/
def revAt (d : Directory) (id : ℕ) : ℕ :=
  ((d.segs[id]?).map SegState.rev).getD 0

def updSeg (d : Directory) (id : ℕ) (s : SegState) : Directory :=
  { d with segs := d.segs.set id s }

/-- `shmBufferCreateSegment`: pop a slot from the free-segment list
(`ereport(ERROR, out of shared memory)` if empty), check
`Assert(!SHMBUF_SEGMENT_EXISTS(revision))`, create and map the backing
object (the OS calls are fatal-on-failure, hence success in the model),
re-tile the segment with maximal free chunks and advance the revision by
one with `pg_atomic_add_fetch_u32` (a 32-bit counter, wrapping at
`2 ^ 32`).  The new segment is returned without being linked into any
list — linking is the caller's job. -/
def shmBufferCreateSegment (d : Directory) : Except Err (Directory × ℕ) :=
  match d.freeList with
  | [] => .error .outOfMemory
  | id :: rest =>
    match d.segs[id]? with
    | none => .error .assertFailed
    | some seg =>
      if SHMBUF_SEGMENT_EXISTS seg.rev then .error .assertFailed
      else
        .ok ({ d with
                freeList := rest,
                segs := d.segs.set id
                  (freshSegState d.segSize ((seg.rev + 1) % UINT32_MOD)) },
             id)

/-- The `dlist_foreach` scan of `shmBufferAllocChunk` over the
active-segment list: try each segment in list order, return the first
chunk obtained; errors raised by an attempt propagate. -/
def allocChunkScan (d : Directory) (required : ℕ) :
    List ℕ → Except Err (Option (ℕ × ℕ × Directory))
  | [] => .ok none
  | id :: ids =>
    match d.segs[id]? with
    | none => .error .assertFailed
    | some seg =>
      match shmBufferAllocChunkFromSegment seg required with
      | .error e => .error e
      | .ok (some (off, seg')) => .ok (some (id, off, updSeg d id seg'))
      | .ok none => allocChunkScan d required ids

/-- `shmBufferAllocChunk`: scan the active segments; if none yields a
chunk, the code calls `shmBufferCreateSegment` (line 540) to create a new
segment, push it onto the head of the active list and retry once — but it
runs with `shmBufSegHead->lock` already held by the caller (acquired at
line 567), and `shmBufferCreateSegment` re-acquires the same non-recursive
`slock_t` (line 286).  The spin can never succeed, so every call reaching
the creation path dies in PostgreSQL's stuck-spinlock PANIC; the
distinguished `stuckSpinlock` outcome models that crash (the
create/retry/out-of-memory code below it is unreachable).  A successful
scan result is `(segment id, chunk offset, new directory)`. -/
def shmBufferAllocChunk (d : Directory) (required : ℕ) :
    Except Err (Option (ℕ × ℕ × Directory)) :=
  match allocChunkScan d required d.activeList with
  | .error e => .error e
  | .ok (some r) => .ok (some r)
  | .ok none => .error .stuckSpinlock

/-- `shmbufAlloc`: the public facade.  `.ok (none, d)` models the
`if (!chunk) return NULL;` branch; a returned pointer is the payload
address `id * segSize + chunk offset + CHUNK_HEADER_SZ` (i.e.
`chunk->data`) relative to the reservation base. -/
def shmbufAlloc (d : Directory) (sz : ℕ) : Except Err (Option ℕ × Directory) :=
  match shmBufferAllocChunk d sz with
  | .error e => .error e
  | .ok none => .ok (none, d)
  | .ok (some (id, off, d')) =>
    .ok (some (id * d.segSize + off + CHUNK_HEADER_SZ), d')

/-- Byte memory of the reserved range, for the zero-fill of
`shmbufAllocZero`. -/
def memsetZero (mem : ℕ → ℕ) (addr n : ℕ) : ℕ → ℕ :=
  fun a => if addr ≤ a ∧ a < addr + n then 0 else mem a

/-- `shmbufAllocZero`: `shmbufAlloc` followed by `memset(addr, 0, sz)` when
the returned pointer is non-NULL. -/
def shmbufAllocZero (d : Directory) (mem : ℕ → ℕ) (sz : ℕ) :
    Except Err (Option ℕ × Directory × (ℕ → ℕ)) :=
  match shmbufAlloc d sz with
  | .error e => .error e
  | .ok (none, d') => .ok (none, d', mem)
  | .ok (some addr, d') => .ok (some addr, d', memsetZero mem addr sz)

/-- `shmBufferDropSegment`: the slot-state effect of dropping a segment is
advancing its revision by one with `pg_atomic_fetch_add_u32` (a 32-bit
counter, wrapping at `2 ^ 32`); the unmap/truncate/unlink of the backing
object are fatal-on-failure OS calls. -/
def shmBufferDropSegment (seg : SegState) : SegState :=
  { seg with rev := (seg.rev + 1) % UINT32_MOD }

/-- `shmbufFree`: recover the chunk offset and owning slot from the payload
pointer by fixed-offset arithmetic, free the chunk, and — when the segment
became fully free — unlink it from the active list, drop it and push the
slot onto the head of the free list. -/
def shmbufFree (d : Directory) (addr : ℕ) : Except Err Directory :=
  match d.segs[(addr - CHUNK_HEADER_SZ) / d.segSize]? with
  | none => .error .assertFailed
  | some seg =>
    match shmBufferFreeChunk d.segSize seg
        ((addr - CHUNK_HEADER_SZ) % d.segSize) with
    | .error e => .error e
    | .ok (seg', becameEmpty) =>
      if becameEmpty then
        .ok { d with
          activeList := d.activeList.erase ((addr - CHUNK_HEADER_SZ) / d.segSize),
          freeList := (addr - CHUNK_HEADER_SZ) / d.segSize :: d.freeList,
          segs := d.segs.set ((addr - CHUNK_HEADER_SZ) / d.segSize)
            (shmBufferDropSegment seg') }
      else .ok (updSeg d ((addr - CHUNK_HEADER_SZ) / d.segSize) seg')

/-! ## Directory-lock event traces

The directory spinlock (`shmBufSegHead->lock`) is a PostgreSQL `slock_t`:
non-recursive, so acquiring it while the same process already holds it can
never succeed.  To reason about lock discipline we record the sequence of
lock and OS-syscall events each call performs, mirroring the source's
control flow: `shmbufAlloc` wraps the whole of `shmBufferAllocChunk` in
acquire/release (lines 567-578, including the `PG_CATCH` release), and
`shmBufferCreateSegment` acquires the same lock again for the free-list pop
(lines 286-298) and then performs `shm_open`, `fallocate` and `mmap`. -/

inductive LockEv
  | acq
  | rel
  | sysShmOpen
  | sysFallocate
  | sysMmap
deriving DecidableEq, Repr

/-- Lock/syscall events of `shmBufferCreateSegment`: the spinlock is taken
and released around the free-list pop; the object-creation syscalls follow
on the success path. -/
def createSegmentEvents (d : Directory) : List LockEv :=
  match d.freeList with
  | [] => [.acq, .rel]
  | _ :: _ => [.acq, .rel, .sysShmOpen, .sysFallocate, .sysMmap]

/-- Lock/syscall events of one `shmbufAlloc` call: the outer acquire, the
events of segment creation when the scan found no room, and the final
release (the scan itself takes no locks and makes no syscalls). -/
def shmbufAllocEvents (d : Directory) (sz : ℕ) : List LockEv :=
  .acq :: ((match allocChunkScan d sz d.activeList with
            | .ok none => createSegmentEvents d
            | _ => []) ++ [.rel])

/-- Fold over an event list: given the current hold count, report whether
some acquire happens while the lock is already held, and whether some
syscall happens while the lock is held. -/
def checkLockEvents : List LockEv → ℕ → Bool × Bool
  | [], _ => (false, false)
  | .acq :: rest, h =>
    let r := checkLockEvents rest (h + 1)
    (r.1 || decide (0 < h), r.2)
  | .rel :: rest, h => checkLockEvents rest (h - 1)
  | _ :: rest, h =>
    let r := checkLockEvents rest h
    (r.1, r.2 || decide (0 < h))

/-- Does the call acquire the directory lock while already holding it? -/
def hasRecursiveAcquire (evs : List LockEv) : Bool := (checkLockEvents evs 0).1

/-- Does the call perform an OS creation/sizing/mapping syscall while
holding the directory lock? -/
def hasSyscallWhileLocked (evs : List LockEv) : Bool := (checkLockEvents evs 0).2

/-! ## Invariant predicates and concrete states used by the theorems -/

/-- The chunk headers of a segment partition `[start, segSize)` in address
order: each chunk begins exactly where the previous one ended. -/
def chunksOK : List MChunk → ℕ → ℕ → Prop
  | [], start, segSize => start = segSize
  | c :: cs, start, segSize => c.off = start ∧ chunksOK cs (start + 2 ^ c.mclass) segSize

instance instDecChunksOK : ∀ (cs : List MChunk) (a s : ℕ), Decidable (chunksOK cs a s)
  | [], a, s => decidable_of_iff (a = s) (by simp [chunksOK])
  | c :: cs, a, s =>
    have := instDecChunksOK cs (a + 2 ^ c.mclass) s
    decidable_of_iff (c.off = a ∧ chunksOK cs (a + 2 ^ c.mclass) s) (by simp [chunksOK])

/-- Total span, in bytes, of a list of chunks. -/
def sumSpans (cs : List MChunk) : ℕ := (cs.map (fun c => 2 ^ c.mclass)).sum

/-- Every chunk's offset is a multiple of its own size class. -/
def AlignedChunks (cs : List MChunk) : Prop := ∀ c ∈ cs, 2 ^ c.mclass ∣ c.off

instance (cs : List MChunk) : Decidable (AlignedChunks cs) :=
  List.decidableBAll _ cs

/-- A never-created slot, as left by `pgstrom_startup_shmbuf` (revision 0,
empty free lists, nothing mapped). -/
def emptySlot : SegState :=
  { rev := 0, num_actives := 0, chunks := [], freeLists := fun _ => [] }

/-- A directory with one freshly created 32 MiB segment on the active list
and one free slot. -/
def dir32 : Directory :=
  { segSize := 2 ^ 25, activeList := [0], freeList := [1],
    segs := [freshSegState (2 ^ 25) 1, emptySlot] }

/-- A directory whose active list is empty (the state of the directory on
the very first `shmbufAlloc` call, given that the segment pre-created at
startup is linked into neither list). -/
def dirFresh : Directory :=
  { segSize := 2 ^ 25, activeList := [], freeList := [1, 2],
    segs := [emptySlot, emptySlot, emptySlot] }

/-- A one-chunk segment whose only chunk has both guard words clobbered. -/
def corruptSeg : SegState :=
  { rev := 1, num_actives := 1,
    chunks := [{ off := 0, mclass := 7, required := 1,
                 magic_head := 0, magic_tail := 0, linked := false }],
    freeLists := fun _ => [] }

/-- The head of the free-segment list is usable: the slot exists in the
array and its revision is even. -/
def FreeHeadReady (d : Directory) : Prop :=
  match d.freeList with
  | [] => False
  | id :: _ => ∃ seg, d.segs[id]? = some seg ∧ SHMBUF_SEGMENT_EXISTS seg.rev = false

/-- Every id on the active list indexes a real slot. -/
def ActiveIdsValid (d : Directory) : Prop :=
  ∀ id ∈ d.activeList, (d.segs[id]?).isSome

/-- The directory can attempt at least one per-segment allocation: either
the head of the active list indexes a real slot, or the active list is
empty and a usable free slot is available for segment creation.  (Every
state of a running system satisfies this: the free list only empties after
segments were created, and those sit on the active list.) -/
def HReady (d : Directory) : Prop :=
  match d.activeList with
  | id :: _ => (d.segs[id]?).isSome
  | [] => FreeHeadReady d

/-! ## Directory lifecycle transition system (for the revision claims)

`DirStep` holds between two directory states when one allocator entry point
transforms the first into the second: the bare `shmBufferCreateSegment`
call of `pgstrom_startup_shmbuf` (whose result is linked into no list),
`shmbufAlloc`, or `shmbufFree`.  `DirReachable` is the set of states
reachable from a start-of-day directory (all slots at revision 0, all on
the free list). -/

def initDir (segSize n : ℕ) : Directory :=
  { segSize := segSize, activeList := [], freeList := List.range n,
    segs := List.replicate n emptySlot }

inductive DirStep : Directory → Directory → Prop
  | startupCreate (d d' : Directory) (id : ℕ) :
      shmBufferCreateSegment d = .ok (d', id) → DirStep d d'
  | alloc (d d' : Directory) (sz : ℕ) (p : Option ℕ) :
      shmbufAlloc d sz = .ok (p, d') → DirStep d d'
  | free (d d' : Directory) (addr : ℕ) :
      shmbufFree d addr = .ok d' → DirStep d d'

inductive DirReachable : Directory → Prop
  | init (segSize n : ℕ) : DirReachable (initDir segSize n)
  | step {d d' : Directory} : DirReachable d → DirStep d d' → DirReachable d'

/-- The directory invariant carried through `DirReachable`: the free list
has no duplicates and holds exactly the slots with even revision, all of
which are inside the array and fully free; the active list is duplicate
free and disjoint from the free list. -/
def DirInv (d : Directory) : Prop :=
  d.freeList.Nodup ∧
  d.activeList.Nodup ∧
  (∀ id ∈ d.freeList,
    id < d.segs.length ∧ revAt d id % 2 = 0 ∧
    (∀ seg, d.segs[id]? = some seg → seg.num_actives = 0)) ∧
  (∀ id, id < d.segs.length → id ∉ d.freeList → revAt d id % 2 = 1) ∧
  (∀ id ∈ d.activeList, id ∉ d.freeList)

/-! ## Round-trip and sibling-merge checkers (for the round-trip claim)

`rtCheck k n` performs an allocate of `n` bytes followed immediately by a
free of the returned offset on a fresh segment of `2^k` bytes (a single
free class-`k` chunk) and checks that the free reports the segment fully
free and that the state is back to exactly one free class-`k` chunk at
offset 0, zero active chunks, and only the class-`k` free list populated.
`sibSeg` is the segment after the unique top-level split of a `2^(m+1)`
segment with both class-`m` siblings allocated (stored request sizes `r1`,
`r2`); `sibFree2` frees the two siblings in the given order. -/

def isSingleFull (k : ℕ) : List MChunk → Bool
  | [c0] => (c0.off == 0) && (c0.mclass == k) && c0.linked
  | _ => false

def isFullFreeSeg (k : ℕ) (seg : SegState) : Bool :=
  (seg.num_actives == 0) &&
  isSingleFull k seg.chunks &&
  (seg.freeLists k == [0]) &&
  ((List.range 34).all fun j => (j == k) || (seg.freeLists j).isEmpty)

def rtCheck (k n : ℕ) : Bool :=
  match shmBufferAllocChunkFromSegment (freshSegState (2 ^ k) 1) n with
  | .ok (some (off, seg')) =>
    match shmBufferFreeChunk (2 ^ k) seg' off with
    | .ok (seg'', b) => b && isFullFreeSeg k seg''
    | _ => false
  | _ => false

def sibSeg (m r1 r2 : ℕ) : SegState :=
  { rev := 1, num_actives := 2,
    chunks := [
      { off := 0, mclass := m, required := r1,
        magic_head := SHMBUF_CHUNK_MAGIC_CODE,
        magic_tail := SHMBUF_CHUNK_MAGIC_CODE, linked := false },
      { off := 2 ^ m, mclass := m, required := r2,
        magic_head := SHMBUF_CHUNK_MAGIC_CODE,
        magic_tail := SHMBUF_CHUNK_MAGIC_CODE, linked := false } ],
    freeLists := fun _ => [] }

def sibFree2 (m r1 r2 oA oB : ℕ) : Except Err (SegState × Bool) :=
  match shmBufferFreeChunk (2 ^ (m + 1)) (sibSeg m r1 r2) oA with
  | .error e => .error e
  | .ok (s1, _) => shmBufferFreeChunk (2 ^ (m + 1)) s1 oB

/-! ## Request-size erasure

The stored request size (`required`) is written by allocation and never read
back on the free path (the tail guard is a stored word in this model), so
the round-trip behaviour of the allocator is invariant under changing it.
`eraseReq` zeroes the field; the `...Rel` relations state that two runs
agree on everything except stored request sizes, and the congruence theorems
below push the relation through every routine.  This lets the round-trip
theorem, quantified over an arbitrary request size, reduce to a closed
computation per size class. -/

def eraseReq (c : MChunk) : MChunk :=
  { c with required := 0 }

/-- `__shmBufferAllocChunkFromSegment` with the size class passed
explicitly: the same body with `chunkClassOf required` abstracted into `c`
(see `allocFromSegment_eq_byClass`). -/
def allocByClass (seg : SegState) (c r : ℕ) :
    Except Err (Option (ℕ × SegState)) :=
  if SHMBUF_CHUNKSZ_MAX_BIT < c then .error .tooLarge
  else
    match (if (seg.freeLists c).isEmpty
           then shmBufferSplitChunk seg (c + 1) 34
           else .ok (some seg)) with
    | .error e => .error e
    | .ok none => .ok none
    | .ok (some seg') => allocPopChunk seg' c r

def rtCheckC (k c r : ℕ) : Bool :=
  match allocByClass (freshSegState (2 ^ k) 1) c r with
  | .ok (some (off, seg')) =>
    match shmBufferFreeChunk (2 ^ k) seg' off with
    | .ok (seg'', b) => b && isFullFreeSeg k seg''
    | _ => false
  | _ => false

def mergeRel : Except Err (List MChunk × (ℕ → List ℕ) × ℕ × ℕ) →
    Except Err (List MChunk × (ℕ → List ℕ) × ℕ × ℕ) → Prop
  | .error e, .error e' => e = e'
  | .ok (cs, fl, o, m), .ok (cs', fl', o', m') =>
    cs.map eraseReq = cs'.map eraseReq ∧ fl = fl' ∧ o = o' ∧ m = m'
  | _, _ => False

def freeRel : Except Err (SegState × Bool) →
    Except Err (SegState × Bool) → Prop
  | .error e, .error e' => e = e'
  | .ok (T, b), .ok (T', b') =>
    b = b' ∧ T.chunks.map eraseReq = T'.chunks.map eraseReq ∧
    T.freeLists = T'.freeLists ∧ T.num_actives = T'.num_actives
  | _, _ => False

def allocRel : Except Err (Option (ℕ × SegState)) →
    Except Err (Option (ℕ × SegState)) → Prop
  | .error e, .error e' => e = e'
  | .ok none, .ok none => True
  | .ok (some (o, S)), .ok (some (o', S')) =>
    o = o' ∧ S.chunks.map eraseReq = S'.chunks.map eraseReq ∧
    S.freeLists = S'.freeLists ∧ S.num_actives = S'.num_actives
  | _, _ => False

/-- The merged parent chunk (request size erased): the lower sibling's
header with the class bumped, linked into the free list. -/
def sibMerged (m : ℕ) : MChunk :=
  { off := 0, mclass := m + 1, required := 0,
    magic_head := SHMBUF_CHUNK_MAGIC_CODE,
    magic_tail := SHMBUF_CHUNK_MAGIC_CODE, linked := true }

/-- The closed (request sizes 0) order-independence check for the two
siblings of class `m`: both free orders succeed reporting the segment
empty, both end in the single merged parent chunk with zero active chunks,
the class `m + 1` list holds exactly the parent, and the two final
free-list tables agree on every class. -/
def sibCheck0 (m : ℕ) : Bool :=
  match sibFree2 m 0 0 0 (2 ^ m), sibFree2 m 0 0 (2 ^ m) 0 with
  | .ok (sA, bA), .ok (sB, bB) =>
    bA && bB && (sA.chunks.map eraseReq == [sibMerged m]) &&
    (sB.chunks.map eraseReq == [sibMerged m]) &&
    (sA.num_actives == 0) && (sB.num_actives == 0) &&
    (sA.freeLists (m + 1) == [0]) &&
    ((List.range 34).all fun j => sA.freeLists j == sB.freeLists j)
  | _, _ => false

/-! ## Theorems

First the characterization of `get_next_log2`, then helper lemmas about the
list operations, then one theorem per claim (with witnesses). -/

theorem glog2Go_le_pow (fuel k sz : ℕ) (h : sz ≤ 2 ^ (k + fuel)) :
    sz ≤ 2 ^ glog2Go fuel k sz := by
  induction fuel generalizing k with
  | zero => simpa [glog2Go] using h
  | succ n ih =>
    simp only [glog2Go]
    split
    · assumption
    · exact ih (k + 1) (by rw [show k + 1 + n = k + (n + 1) by omega]; exact h)

theorem le_pow_get_next_log2 (sz : ℕ) : sz ≤ 2 ^ get_next_log2 sz := by
  have h : sz ≤ 2 ^ (0 + sz) := by
    simpa using (Nat.lt_two_pow sz).le
  exact glog2Go_le_pow sz 0 sz h

theorem glog2Go_min (fuel k sz j : ℕ) (hkj : k ≤ j) (h : sz ≤ 2 ^ j) :
    glog2Go fuel k sz ≤ j := by
  induction fuel generalizing k with
  | zero => simpa [glog2Go] using hkj
  | succ n ih =>
    simp only [glog2Go]
    split
    · exact hkj
    · rename_i hlt
      have hk : ¬ sz ≤ 2 ^ k := hlt
      have : k < j := by
        by_contra hc
        have : j ≤ k := by omega
        exact hk (h.trans (Nat.pow_le_pow_right (by norm_num) this))
      exact ih (k + 1) (by omega)

theorem get_next_log2_le (sz j : ℕ) (h : sz ≤ 2 ^ j) : get_next_log2 sz ≤ j :=
  glog2Go_min sz 0 sz j (Nat.zero_le j) h

theorem get_next_log2_gt_iff (sz j : ℕ) : j < get_next_log2 sz ↔ 2 ^ j < sz := by
  constructor
  · intro h
    by_contra hc
    have := get_next_log2_le sz j (by omega)
    omega
  · intro h
    by_contra hc
    have hle : get_next_log2 sz ≤ j := by omega
    have := (le_pow_get_next_log2 sz).trans (Nat.pow_le_pow_right (by norm_num) hle)
    omega

/-- C1: the claim says the fault handler's successful on-demand attach
records the current revision and `is_attached = true` in the local map
entry before returning.  The code does not: on the success path (segment
revision odd, not yet attached, `shm_open` and `mmap` succeed) the handler
resumes the faulting instruction with the local map entry untouched —
`is_attached` is still `false` and the recorded revision still differs from
the one read at step 1. -/
theorem attach_success_leaves_localmap_unattached :
    shmBufferAttachSegmentOnDemand 1 ⟨0, false⟩ true true true =
      ⟨.resumed, ⟨0, false⟩⟩ ∧
    (shmBufferAttachSegmentOnDemand 1 ⟨0, false⟩ true true true).lmap.is_attached
      = false ∧
    (shmBufferAttachSegmentOnDemand 1 ⟨0, false⟩ true true true).lmap.revision
      ≠ 1 := by
  refine ⟨rfl, rfl, ?_⟩
  decide

/-- C2: on the segment-creation path of `shmbufAlloc` (here: the very first
allocation, whose active list is empty), the directory spinlock is acquired
again by `shmBufferCreateSegment` while `shmbufAlloc` already holds it —
PostgreSQL spinlocks are non-recursive, so this can never succeed — and the
object-creation syscalls (`shm_open`, `fallocate`, `mmap`) all run while
the outer hold of the directory lock is in force. -/
theorem alloc_creation_path_violates_lock_discipline :
    shmbufAllocEvents dirFresh 100 =
      [.acq, .acq, .rel, .sysShmOpen, .sysFallocate, .sysMmap, .rel] ∧
    hasRecursiveAcquire (shmbufAllocEvents dirFresh 100) = true ∧
    hasSyscallWhileLocked (shmbufAllocEvents dirFresh 100) = true := by
  refine ⟨rfl, rfl, rfl⟩

/-- C3: the claimed scan/create/retry/out-of-memory discipline of
`allocate(n)` breaks for a request whose padded size rounds to exactly
`SHMBUF_CHUNKSZ_MAX_BIT`: on a 32 MiB segment, `allocate(2^31)` computes
class 32, finds the class-32 free list empty, and calls
`shmBufferSplitChunk(seg, 33)` — violating that function's own
`Assert(mclass <= SHMBUF_CHUNKSZ_MAX_BIT)` instead of treating the attempt
as a failure, creating a segment, retrying and raising out-of-memory. -/
theorem alloc_class32_split_assert_violation :
    shmbufAlloc dir32 (2 ^ 31) = .error .assertFailed ∧
    chunkClassOf (2 ^ 31) = SHMBUF_CHUNKSZ_MAX_BIT := by
  exact ⟨rfl, rfl⟩

/-- C5: `shmBufferFreeChunk` validates both guard words of the chunk being
freed before doing anything else: if either the head magic or the tail
magic differs from `SHMBUF_CHUNK_MAGIC_CODE`, the free fails on the entry
assertion (reported, no coalescing, no free-list push, no state change). -/
theorem freeChunk_detects_guard_mismatch (segSize : ℕ) (seg : SegState)
    (off : ℕ) (c : MChunk)
    (hc : chunkAt seg.chunks off = some c)
    (hbad : c.magic_head ≠ SHMBUF_CHUNK_MAGIC_CODE ∨
            c.magic_tail ≠ SHMBUF_CHUNK_MAGIC_CODE) :
    shmBufferFreeChunk segSize seg off = .error .assertFailed := by
  unfold shmBufferFreeChunk
  rw [hc]
  have hcond : ¬ (SHMBUF_CHUNKSZ_MIN_BIT ≤ c.mclass ∧
      c.mclass ≤ SHMBUF_CHUNKSZ_MAX_BIT ∧
      c.magic_head = SHMBUF_CHUNK_MAGIC_CODE ∧
      c.magic_tail = SHMBUF_CHUNK_MAGIC_CODE) := by
    rintro ⟨-, -, h3, h4⟩
    rcases hbad with hb | hb
    · exact hb h3
    · exact hb h4
  simp only [if_neg hcond]

theorem freeChunk_detects_guard_mismatch_witness :
    shmBufferFreeChunk 128 corruptSeg 0 = .error .assertFailed :=
  freeChunk_detects_guard_mismatch 128 corruptSeg 0
    { off := 0, mclass := 7, required := 1,
      magic_head := 0, magic_tail := 0, linked := false }
    rfl (Or.inl (by decide))

/-! ### Helper lemmas for the error-classification claims -/

theorem chunkAt_setChunk_self (cs : List MChunk) (o : ℕ) (f : MChunk → MChunk)
    (hoff : ∀ x, (f x).off = x.off)
    (c : MChunk) (h : chunkAt cs o = some c) :
    chunkAt (setChunk cs o f) o = some (f c) := by
  induction cs with
  | nil => simp [chunkAt] at h
  | cons a cs ih =>
    rw [chunkAt] at h
    by_cases ha : a.off = o
    · rw [if_pos ha] at h
      cases h
      rw [setChunk, if_pos ha, chunkAt, if_pos (by rw [hoff]; exact ha)]
    · rw [if_neg ha] at h
      rw [setChunk, if_neg ha, chunkAt, if_neg ha]
      exact ih h

theorem splitPop_ne_tooLarge (seg : SegState) (mclass : ℕ) :
    splitPop seg mclass ≠ .error .tooLarge := by
  unfold splitPop
  cases hfl : seg.freeLists mclass with
  | nil => simp
  | cons o rest =>
    cases hco : chunkAt seg.chunks o with
    | none => simp [hco]
    | some c =>
      simp only [hco]
      split <;> simp

theorem splitChunk_ne_tooLarge (fuel : ℕ) (seg : SegState) (mclass : ℕ) :
    shmBufferSplitChunk seg mclass fuel ≠ .error .tooLarge := by
  induction fuel generalizing seg mclass with
  | zero => simp [shmBufferSplitChunk]
  | succ n ih =>
    rw [shmBufferSplitChunk]
    split
    · split
      · split
        · simp
        · cases hrec : shmBufferSplitChunk seg (mclass + 1) n with
          | error e =>
            simp only []
            intro hcontra
            cases hcontra
            exact ih seg (mclass + 1) hrec
          | ok r =>
            cases r with
            | none => simp
            | some seg2 =>
              simp only []
              cases hsp : splitPop seg2 mclass with
              | error e =>
                have hne := splitPop_ne_tooLarge seg2 mclass
                rw [hsp] at hne
                simp only [Except.map]
                intro he
                cases he
                exact hne rfl
              | ok s => simp [Except.map]
      · cases hsp : splitPop seg mclass with
        | error e =>
          have hne := splitPop_ne_tooLarge seg mclass
          rw [hsp] at hne
          simp only [Except.map]
          intro he
          cases he
          exact hne rfl
        | ok s => simp [Except.map]
    · simp

theorem MIN_BIT_eq : SHMBUF_CHUNKSZ_MIN_BIT = 7 := rfl

theorem MAX_BIT_eq : SHMBUF_CHUNKSZ_MAX_BIT = 32 := rfl

theorem chunkClassOf_min (n : ℕ) : SHMBUF_CHUNKSZ_MIN_BIT ≤ chunkClassOf n := by
  unfold chunkClassOf
  split <;> omega

theorem chunkClassOf_gt_max_iff (n : ℕ) :
    SHMBUF_CHUNKSZ_MAX_BIT < chunkClassOf n ↔
      2 ^ SHMBUF_CHUNKSZ_MAX_BIT < (CHUNK_HEADER_SZ + n + MAGIC_SZ) % SIZE_MOD := by
  have hg := get_next_log2_gt_iff ((CHUNK_HEADER_SZ + n + MAGIC_SZ) % SIZE_MOD)
    SHMBUF_CHUNKSZ_MAX_BIT
  unfold chunkClassOf
  split
  · rename_i hlt
    rw [MIN_BIT_eq] at hlt
    rw [MAX_BIT_eq] at hg ⊢
    rw [MIN_BIT_eq]
    constructor
    · intro h; omega
    · intro h
      have := hg.mpr h
      omega
  · exact hg

theorem chunkClassOf_spans_request (n : ℕ) :
    (CHUNK_HEADER_SZ + n + MAGIC_SZ) % SIZE_MOD ≤ 2 ^ chunkClassOf n := by
  unfold chunkClassOf
  split
  · rename_i hlt
    calc (CHUNK_HEADER_SZ + n + MAGIC_SZ) % SIZE_MOD
        ≤ 2 ^ get_next_log2 ((CHUNK_HEADER_SZ + n + MAGIC_SZ) % SIZE_MOD) :=
          le_pow_get_next_log2 _
      _ ≤ 2 ^ SHMBUF_CHUNKSZ_MIN_BIT :=
          Nat.pow_le_pow_right (by norm_num) (by omega)
  · exact le_pow_get_next_log2 _

theorem allocPopChunk_ne_tooLarge (seg : SegState) (mclass required : ℕ) :
    allocPopChunk seg mclass required ≠ .error .tooLarge := by
  unfold allocPopChunk
  cases hfl : seg.freeLists mclass with
  | nil => simp
  | cons o rest =>
    cases hco : chunkAt seg.chunks o with
    | none => simp [hco]
    | some c =>
      simp only [hco]
      split <;> simp

theorem allocFromSegment_tooLarge_iff (seg : SegState) (n : ℕ) :
    shmBufferAllocChunkFromSegment seg n = .error .tooLarge ↔
      SHMBUF_CHUNKSZ_MAX_BIT < chunkClassOf n := by
  unfold shmBufferAllocChunkFromSegment
  by_cases hbig : SHMBUF_CHUNKSZ_MAX_BIT < chunkClassOf n
  · simp [hbig]
  · simp only [if_neg hbig]
    constructor
    · intro h
      exfalso
      revert h
      cases hx : (if (seg.freeLists (chunkClassOf n)).isEmpty
                  then shmBufferSplitChunk seg (chunkClassOf n + 1) 34
                  else .ok (some seg)) with
      | error e =>
        simp only []
        intro he
        cases he
        revert hx
        split
        · exact fun hx => splitChunk_ne_tooLarge 34 seg (chunkClassOf n + 1) hx
        · intro hx; cases hx
      | ok r =>
        cases r with
        | none => simp
        | some seg' =>
          simp only []
          intro he
          exact allocPopChunk_ne_tooLarge seg' (chunkClassOf n) n he
    · intro h; exact absurd h hbig

theorem createSegment_ne_tooLarge (d : Directory) :
    shmBufferCreateSegment d ≠ .error .tooLarge := by
  unfold shmBufferCreateSegment
  cases hfl : d.freeList with
  | nil => simp
  | cons id rest =>
    cases hseg : d.segs[id]? with
    | none => simp [hseg]
    | some seg =>
      simp only [hseg]
      split <;> simp

theorem scan_tooLarge_imp (d : Directory) (n : ℕ) (ids : List ℕ)
    (h : allocChunkScan d n ids = .error .tooLarge) :
    SHMBUF_CHUNKSZ_MAX_BIT < chunkClassOf n := by
  induction ids with
  | nil => simp [allocChunkScan] at h
  | cons id ids ih =>
    rw [allocChunkScan] at h
    revert h
    cases hseg : d.segs[id]? with
    | none => intro h; cases h
    | some seg =>
      simp only []
      cases halloc : shmBufferAllocChunkFromSegment seg n with
      | error e =>
        intro h
        cases h
        exact (allocFromSegment_tooLarge_iff seg n).mp halloc
      | ok r =>
        cases r with
        | none => intro h; exact ih h
        | some p => intro h; cases h

theorem allocChunk_tooLarge_imp (d : Directory) (n : ℕ)
    (h : shmBufferAllocChunk d n = .error .tooLarge) :
    SHMBUF_CHUNKSZ_MAX_BIT < chunkClassOf n := by
  rw [shmBufferAllocChunk] at h
  revert h
  cases hscan : allocChunkScan d n d.activeList with
  | error e =>
    intro h
    cases h
    exact scan_tooLarge_imp d n d.activeList hscan
  | ok r =>
    cases r with
    | some p => intro h; cases h
    | none => intro h; cases h

/-- C4: the claim says `allocate(n)` raises the oversized-allocation error
exactly when header + `n` + trailer, rounded up to a power-of-two class,
exceeds the maximum class, independently of how many segments exist.  The
code diverges in both directions.  First, whenever the active-segment list
is empty (the state of the very first allocation), the call reaches the
segment-creation path and dies in the stuck-spinlock PANIC before any size
check: an oversized request (here `2 ^ 33`, padded class 34) is not
answered with TooLarge.  Second, the padded size is computed in `Size`
(uint64), which wraps: `allocate(2 ^ 64 - 20)` has a padded size of
`2 ^ 64 + 24`, far beyond the 4 GiB maximum span, yet the computed sum
wraps to 24, the class clamps to 7, and the call succeeds. -/
theorem alloc_tooLarge_masked_by_deadlock_and_wrap :
    (SHMBUF_CHUNKSZ_MAX_BIT < chunkClassOf (2 ^ 33) ∧
     shmbufAlloc dirFresh (2 ^ 33) = .error .stuckSpinlock) ∧
    (2 ^ SHMBUF_CHUNKSZ_MAX_BIT < CHUNK_HEADER_SZ + (2 ^ 64 - 20) + MAGIC_SZ ∧
     chunkClassOf (2 ^ 64 - 20) = SHMBUF_CHUNKSZ_MIN_BIT ∧
     ∃ p d', shmbufAlloc dir32 (2 ^ 64 - 20) = .ok (some p, d')) := by
  refine ⟨⟨by decide, rfl⟩, by decide, by decide, ⟨_, _, rfl⟩⟩

theorem allocChunk_ne_ok_none (d : Directory) (n : ℕ) :
    shmBufferAllocChunk d n ≠ .ok none := by
  rw [shmBufferAllocChunk]
  cases hscan : allocChunkScan d n d.activeList with
  | error e => simp
  | ok r =>
    cases r with
    | some p => simp
    | none => simp

theorem splitPop_err (seg : SegState) (mclass : ℕ) (e : Err)
    (h : splitPop seg mclass = .error e) : e = .assertFailed := by
  rw [splitPop] at h
  revert h
  cases hfl : seg.freeLists mclass with
  | nil => intro h; cases h; rfl
  | cons o rest =>
    cases hco : chunkAt seg.chunks o with
    | none => simp only [hco]; intro h; cases h; rfl
    | some c =>
      simp only [hco]
      split
      · intro h; cases h
      · intro h; cases h; rfl

theorem splitChunk_err (fuel : ℕ) :
    ∀ (seg : SegState) (mclass : ℕ) (e : Err),
    shmBufferSplitChunk seg mclass fuel = .error e → e = .assertFailed := by
  induction fuel with
  | zero => intro seg mclass e h; cases h; rfl
  | succ n ih =>
    intro seg mclass e h
    rw [shmBufferSplitChunk] at h
    revert h
    split
    · split
      · split
        · intro h; cases h
        · cases hrec : shmBufferSplitChunk seg (mclass + 1) n with
          | error e2 =>
            simp only []
            intro h
            cases h
            exact ih seg (mclass + 1) e hrec
          | ok r =>
            cases r with
            | none => intro h; cases h
            | some seg2 =>
              simp only []
              cases hsp : splitPop seg2 mclass with
              | error e2 =>
                simp only [Except.map]
                intro h
                cases h
                exact splitPop_err seg2 mclass e hsp
              | ok s2 => simp [Except.map]
      · cases hsp : splitPop seg mclass with
        | error e2 =>
          simp only [Except.map]
          intro h
          cases h
          exact splitPop_err seg mclass e hsp
        | ok s2 => simp [Except.map]
    · intro h; cases h; rfl

theorem allocPopChunk_err (seg : SegState) (mclass required : ℕ) (e : Err)
    (h : allocPopChunk seg mclass required = .error e) : e = .assertFailed := by
  rw [allocPopChunk] at h
  revert h
  cases hfl : seg.freeLists mclass with
  | nil => intro h; cases h; rfl
  | cons o rest =>
    cases hco : chunkAt seg.chunks o with
    | none => simp only [hco]; intro h; cases h; rfl
    | some c =>
      simp only [hco]
      split
      · intro h; cases h
      · intro h; cases h; rfl

theorem allocFromSegment_err (seg : SegState) (n : ℕ) (e : Err)
    (h : shmBufferAllocChunkFromSegment seg n = .error e) :
    e = .tooLarge ∨ e = .assertFailed := by
  rw [shmBufferAllocChunkFromSegment] at h
  revert h
  split
  · intro h; cases h; exact Or.inl rfl
  · cases hx : (if (seg.freeLists (chunkClassOf n)).isEmpty
        then shmBufferSplitChunk seg (chunkClassOf n + 1) 34
        else Except.ok (some seg)) with
    | error e2 =>
      simp only []
      intro h
      cases h
      refine Or.inr ?_
      revert hx
      split
      · exact fun hx => splitChunk_err 34 seg (chunkClassOf n + 1) e hx
      · intro hx; cases hx
    | ok r =>
      cases r with
      | none => intro h; cases h
      | some seg2 =>
        simp only []
        intro h
        exact Or.inr (allocPopChunk_err seg2 (chunkClassOf n) n e h)

theorem scan_err (d : Directory) (n : ℕ) (ids : List ℕ) (e : Err)
    (h : allocChunkScan d n ids = .error e) :
    e = .tooLarge ∨ e = .assertFailed := by
  induction ids with
  | nil => cases h
  | cons id ids ih =>
    rw [allocChunkScan] at h
    revert h
    cases hseg : d.segs[id]? with
    | none => intro h; cases h; exact Or.inr rfl
    | some seg =>
      simp only []
      cases halloc : shmBufferAllocChunkFromSegment seg n with
      | error e2 =>
        intro h
        cases h
        exact allocFromSegment_err seg n e halloc
      | ok r =>
        cases r with
        | none => intro h; exact ih h
        | some p => intro h; cases h

theorem shmbufAlloc_err (d : Directory) (n : ℕ) (e : Err)
    (h : shmbufAlloc d n = .error e) :
    e = .tooLarge ∨ e = .assertFailed ∨ e = .stuckSpinlock := by
  rw [shmbufAlloc] at h
  revert h
  cases hch : shmBufferAllocChunk d n with
  | error e2 =>
    intro h
    cases h
    rw [shmBufferAllocChunk] at hch
    revert hch
    cases hscan : allocChunkScan d n d.activeList with
    | error e3 =>
      intro hch
      cases hch
      rcases scan_err d n d.activeList e hscan with h1 | h1
      · exact Or.inl h1
      · exact Or.inr (Or.inl h1)
    | ok r =>
      cases r with
      | some p => intro hch; cases hch
      | none => intro hch; cases hch; exact Or.inr (Or.inr rfl)
  | ok r =>
    cases r with
    | none => intro h; cases h
    | some t => obtain ⟨a, b, c⟩ := t; intro h; cases h

/-- C10 (amended): `shmbufAlloc` never returns the NULL pointer — the
`if (!chunk) return NULL;` branch of the facade is unreachable because
`shmBufferAllocChunk` either produces a chunk or fails; a failing call
raises TooLarge, an assertion failure, or — on every call that reaches the
segment-creation path, in particular whenever the active-segment list is
empty — the stuck-spinlock PANIC of the recursive `SpinLockAcquire`
(OutOfMemory is unreachable, since the creation path never completes); and
`shmbufAllocZero` never returns NULL either and zero-fills the first `sz`
bytes after the returned payload address — a fill that, for wrap-range
requests, runs far beyond the returned chunk (see the counterexample). -/
theorem shmbufAlloc_never_returns_null :
    (∀ d n p d', shmbufAlloc d n = .ok (p, d') → p.isSome = true) ∧
    (∀ d n e, shmbufAlloc d n = .error e →
      e = .tooLarge ∨ e = .assertFailed ∨ e = .stuckSpinlock) ∧
    (∀ d n, d.activeList = [] → shmbufAlloc d n = .error .stuckSpinlock) ∧
    (∀ d mem sz p d' mem',
       shmbufAllocZero d mem sz = .ok (p, d', mem') →
       p.isSome = true ∧
       ∀ addr, p = some addr → ∀ i, i < sz → mem' (addr + i) = 0) := by
  have halloc : ∀ d n p d', shmbufAlloc d n = .ok (p, d') → p.isSome = true := by
    intro d n p d' h
    rw [shmbufAlloc] at h
    revert h
    cases hch : shmBufferAllocChunk d n with
    | error e => intro h; cases h
    | ok r =>
      cases r with
      | none => intro h; exact absurd hch (allocChunk_ne_ok_none d n)
      | some t =>
        obtain ⟨id, off, d2⟩ := t
        intro h
        cases h
        rfl
  refine ⟨halloc, ?_, ?_, ?_⟩
  · intro d n e h
    exact shmbufAlloc_err d n e h
  · intro d n hact
    rw [shmbufAlloc, shmBufferAllocChunk, hact]
    rfl
  · intro d mem sz p d' mem' h
    rw [shmbufAllocZero] at h
    revert h
    cases ha : shmbufAlloc d sz with
    | error e => intro h; cases h
    | ok r =>
      obtain ⟨po, dres⟩ := r
      cases po with
      | none =>
        intro h
        exact absurd (halloc d sz none dres ha) (by simp)
      | some addr =>
        simp only []
        intro h
        cases h
        refine ⟨rfl, ?_⟩
        intro addr' haddr i hi
        cases haddr
        simp only [memsetZero]
        rw [if_pos ⟨Nat.le_add_right _ _, by omega⟩]

/-- C10, counterexample to the claim as stated (every call returns a
pointer or raises OutOfMemory or TooLarge, and `allocate_zeroed` either
raises or returns `size` zeroed usable bytes): `allocate(2^31)` (padded
class exactly 32) with one active 32 MiB segment dies on the assertion
violated in the split path (class 33) — neither outcome; `allocate(100)`
on an empty active list (the very first call) dies in the stuck-spinlock
PANIC of the recursive lock acquisition — neither outcome; and
`allocate_zeroed(2^64 - 20)` succeeds (the uint64 `chunk_sz` sum wraps to
class 7) and its `memset` of the requested length clobbers memory far
beyond the returned 128-byte chunk (here address 5000) instead of
providing `size` zeroed bytes. -/
theorem alloc_error_neither_oom_nor_tooLarge :
    (shmbufAlloc dir32 (2 ^ 31) = .error .assertFailed ∧
     Err.assertFailed ≠ Err.outOfMemory ∧ Err.assertFailed ≠ Err.tooLarge) ∧
    (shmbufAlloc dirFresh 100 = .error .stuckSpinlock ∧
     Err.stuckSpinlock ≠ Err.outOfMemory ∧ Err.stuckSpinlock ≠ Err.tooLarge) ∧
    (∃ d' mem', shmbufAllocZero dir32 (fun _ => 7) (2 ^ 64 - 20)
        = .ok (some 40, d', mem') ∧
      mem' 5000 = 0 ∧
      (∃ seg c, d'.segs[0]? = some seg ∧ chunkAt seg.chunks 0 = some c ∧
        c.mclass = 7) ∧ (2 : ℕ) ^ 7 < 5000) := by
  refine ⟨⟨rfl, by decide, by decide⟩, ⟨rfl, by decide, by decide⟩,
    _, _, rfl, by decide, ⟨_, _, rfl, rfl, rfl⟩, by decide⟩

theorem shmbufAlloc_never_returns_null_witness :
    (∃ p d', shmbufAlloc dir32 1 = .ok (p, d') ∧ p.isSome = true) ∧
    (Err.assertFailed = .tooLarge ∨ Err.assertFailed = .assertFailed ∨
      Err.assertFailed = .stuckSpinlock) ∧
    shmbufAlloc dirFresh 3 = .error .stuckSpinlock ∧
    (∃ p d' mem',
       shmbufAllocZero dir32 (fun _ => 7) 5 = .ok (p, d', mem') ∧
       p.isSome = true ∧ mem' 42 = 0) := by
  refine ⟨?_, ?_, ?_, ?_⟩
  · exact ⟨some 40, _, rfl,
      shmbufAlloc_never_returns_null.1 dir32 1 (some 40) _ rfl⟩
  · have h31 : shmbufAlloc dir32 (2 ^ 31) = .error .assertFailed := rfl
    exact shmbufAlloc_never_returns_null.2.1 dir32 (2 ^ 31) .assertFailed h31
  · exact shmbufAlloc_never_returns_null.2.2.1 dirFresh 3 rfl
  · refine ⟨some 40, _, _, rfl, ?_, ?_⟩
    · exact (shmbufAlloc_never_returns_null.2.2.2 dir32 (fun _ => 7) 5
        (some 40) _ _ rfl).1
    · exact (shmbufAlloc_never_returns_null.2.2.2 dir32 (fun _ => 7) 5
        (some 40) _ _ rfl).2 40 rfl 2 (by norm_num)

theorem chunkAt_mem (cs : List MChunk) (o : ℕ) (c : MChunk)
    (h : chunkAt cs o = some c) : c ∈ cs ∧ c.off = o := by
  induction cs with
  | nil => simp [chunkAt] at h
  | cons a cs ih =>
    rw [chunkAt] at h
    by_cases ha : a.off = o
    · rw [if_pos ha] at h
      cases h
      exact ⟨List.mem_cons_self _ _, ha⟩
    · rw [if_neg ha] at h
      obtain ⟨h1, h2⟩ := ih h
      exact ⟨List.mem_cons_of_mem _ h1, h2⟩

theorem mem_replaceChunk2 (cs : List MChunk) (o : ℕ) (c1 c2 x : MChunk)
    (h : x ∈ replaceChunk2 cs o c1 c2) : x ∈ cs ∨ x = c1 ∨ x = c2 := by
  induction cs with
  | nil => simp [replaceChunk2] at h
  | cons a cs ih =>
    rw [replaceChunk2] at h
    split at h
    · rcases List.mem_cons.mp h with rfl | h'
      · right; left; rfl
      · rcases List.mem_cons.mp h' with rfl | h''
        · right; right; rfl
        · rcases ih h'' with hm | hc
          · exact Or.inl (List.mem_cons_of_mem _ hm)
          · exact Or.inr hc
    · rcases List.mem_cons.mp h with rfl | h'
      · exact Or.inl (List.mem_cons_self _ _)
      · rcases ih h' with hm | hc
        · exact Or.inl (List.mem_cons_of_mem _ hm)
        · exact Or.inr hc

theorem mem_setChunk (cs : List MChunk) (o : ℕ) (f : MChunk → MChunk)
    (x : MChunk) (h : x ∈ setChunk cs o f) :
    ∃ y ∈ cs, x = y ∨ x = f y := by
  induction cs with
  | nil => simp [setChunk] at h
  | cons a cs ih =>
    rw [setChunk] at h
    rcases List.mem_cons.mp h with heq | h'
    · split at heq
      · exact ⟨a, List.mem_cons_self _ _, Or.inr heq⟩
      · exact ⟨a, List.mem_cons_self _ _, Or.inl heq⟩
    · obtain ⟨y, hy, hxy⟩ := ih h'
      exact ⟨y, List.mem_cons_of_mem _ hy, hxy⟩

theorem aligned_splitPop (seg : SegState) (mclass : ℕ) (seg' : SegState)
    (halign : AlignedChunks seg.chunks)
    (h : splitPop seg mclass = .ok seg') : AlignedChunks seg'.chunks := by
  rw [splitPop] at h
  revert h
  cases hfl : seg.freeLists mclass with
  | nil => intro h; cases h
  | cons o rest =>
    cases hco : chunkAt seg.chunks o with
    | none => simp only [hco]; intro h; cases h
    | some c =>
      simp only [hco]
      split
      · rename_i hcm
        intro h
        cases h
        intro x hx
        obtain ⟨hcmem, hcoff⟩ := chunkAt_mem seg.chunks o c hco
        have hdvd : 2 ^ mclass ∣ o := by
          have := halign c hcmem
          rw [hcoff, hcm.1] at this
          exact this
        have hdvd' : 2 ^ (mclass - 1) ∣ o :=
          dvd_trans (pow_dvd_pow 2 (Nat.sub_le _ _)) hdvd
        rcases mem_replaceChunk2 _ _ _ _ _ hx with hm | rfl | rfl
        · exact halign x hm
        · simpa [freshFreeChunk] using hdvd'
        · simp only [freshFreeChunk]
          exact dvd_add hdvd' dvd_rfl
      · intro h; cases h

theorem aligned_splitChunk (fuel : ℕ) (seg : SegState) (mclass : ℕ)
    (seg' : SegState) (halign : AlignedChunks seg.chunks)
    (h : shmBufferSplitChunk seg mclass fuel = .ok (some seg')) :
    AlignedChunks seg'.chunks := by
  induction fuel generalizing seg mclass seg' with
  | zero => simp [shmBufferSplitChunk] at h
  | succ k ih =>
    rw [shmBufferSplitChunk] at h
    revert h
    split
    · split
      · split
        · intro h; cases h
        · cases hrec : shmBufferSplitChunk seg (mclass + 1) k with
          | error e => intro h; cases h
          | ok r =>
            cases r with
            | none => intro h; cases h
            | some seg2 =>
              simp only []
              cases hsp : splitPop seg2 mclass with
              | error e => simp [Except.map]
              | ok s =>
                simp only [Except.map]
                intro h
                cases h
                exact aligned_splitPop seg2 mclass _ (ih seg (mclass + 1) seg2 halign hrec) hsp
      · cases hsp : splitPop seg mclass with
        | error e => simp [Except.map]
        | ok s =>
          simp only [Except.map]
          intro h
          cases h
          exact aligned_splitPop seg mclass _ halign hsp
    · intro h; cases h

theorem aligned_initLoop (s fuel m off : ℕ) (h : 2 ^ m ∣ off) :
    AlignedChunks (initLoop s fuel m off) := by
  induction fuel generalizing m off with
  | zero => intro c hc; simp [initLoop] at hc
  | succ k ih =>
    intro c hc
    rw [initLoop] at hc
    split at hc
    · simp at hc
    · split at hc
      · rcases List.mem_cons.mp hc with rfl | hmem
        · simpa [freshFreeChunk] using h
        · exact ih m (off + 2 ^ m) (dvd_add h dvd_rfl) c hmem
      · exact ih (m - 1) off
          (dvd_trans (pow_dvd_pow 2 (Nat.sub_le _ _)) h) c hc

theorem aligned_initSegmentChunks (s : ℕ) :
    AlignedChunks (initSegmentChunks s) :=
  aligned_initLoop s (s + 34) SHMBUF_CHUNKSZ_MAX_BIT 0 (dvd_zero _)

/-- Everything a successful `__shmBufferAllocChunkFromSegment` guarantees:
the returned offset holds a chunk stamped with the request's class, and on
an aligned segment both alignment and the stamped-chunk invariants carry
over to the result. -/
theorem allocFromSegment_success (seg : SegState) (n off : ℕ) (seg' : SegState)
    (h : shmBufferAllocChunkFromSegment seg n = .ok (some (off, seg'))) :
    ∃ c, chunkAt seg'.chunks off = some c ∧ c.mclass = chunkClassOf n ∧
      c.required = n ∧
      (AlignedChunks seg.chunks →
        AlignedChunks seg'.chunks ∧ 2 ^ chunkClassOf n ∣ off) := by
  rw [shmBufferAllocChunkFromSegment] at h
  revert h
  split
  · intro h; cases h
  · cases hx : (if (seg.freeLists (chunkClassOf n)).isEmpty
                then shmBufferSplitChunk seg (chunkClassOf n + 1) 34
                else .ok (some seg)) with
    | error e => intro h; cases h
    | ok r =>
      cases r with
      | none => intro h; cases h
      | some seg2 =>
        have halign2 : AlignedChunks seg.chunks → AlignedChunks seg2.chunks := by
          intro ha
          revert hx
          split
          · exact fun hx => aligned_splitChunk 34 seg (chunkClassOf n + 1) seg2 ha hx
          · intro hx; cases hx; exact ha
        simp only []
        rw [allocPopChunk]
        cases hfl : seg2.freeLists (chunkClassOf n) with
        | nil => intro h; cases h
        | cons o rest =>
          cases hco : chunkAt seg2.chunks o with
          | none => simp only [hco]; intro h; cases h
          | some c =>
            simp only [hco]
            split
            · rename_i hcm
              intro h
              cases h
              refine ⟨_, chunkAt_setChunk_self _ _ (fun x => { x with linked := false, required := n, magic_tail := SHMBUF_CHUNK_MAGIC_CODE }) (fun x => rfl) c hco, hcm.1, rfl, ?_⟩
              intro ha
              have ha2 := halign2 ha
              obtain ⟨hcmem, hcoff⟩ := chunkAt_mem seg2.chunks _ c hco
              constructor
              · intro x hx
                obtain ⟨y, hy, hxy⟩ := mem_setChunk _ _ _ x hx
                rcases hxy with rfl | rfl
                · exact ha2 x hy
                · exact ha2 y hy
              · have := ha2 c hcmem
                rw [hcoff, hcm.1] at this
                exact this
            · intro h; cases h

theorem lt_length_of_getElem? {α : Type} (l : List α) (i : ℕ) (a : α)
    (h : l[i]? = some a) : i < l.length := by
  by_contra hc
  rw [List.getElem?_eq_none (by omega)] at h
  cases h

theorem scan_success (d : Directory) (n : ℕ) (ids : List ℕ)
    (id off : ℕ) (dres : Directory)
    (h : allocChunkScan d n ids = .ok (some (id, off, dres))) :
    ∃ seg seg', d.segs[id]? = some seg ∧
      shmBufferAllocChunkFromSegment seg n = .ok (some (off, seg')) ∧
      dres = updSeg d id seg' := by
  induction ids with
  | nil => simp [allocChunkScan] at h
  | cons j ids ih =>
    rw [allocChunkScan] at h
    revert h
    cases hseg : d.segs[j]? with
    | none => intro h; cases h
    | some seg =>
      simp only []
      cases halloc : shmBufferAllocChunkFromSegment seg n with
      | error e => intro h; cases h
      | ok r =>
        cases r with
        | none => intro h; exact ih h
        | some p =>
          obtain ⟨off2, seg2⟩ := p
          intro h
          cases h
          exact ⟨seg, seg2, hseg, halloc, rfl⟩


theorem updSeg_segs (d : Directory) (i : ℕ) (s : SegState) :
    (updSeg d i s).segs = d.segs.set i s := rfl

theorem updSeg_segSize (d : Directory) (i : ℕ) (s : SegState) :
    (updSeg d i s).segSize = d.segSize := rfl

theorem pushActive_segs (d : Directory) (ids : List ℕ) :
    ({ d with activeList := ids } : Directory).segs = d.segs := rfl

theorem pushActive_segSize (d : Directory) (ids : List ℕ) :
    ({ d with activeList := ids } : Directory).segSize = d.segSize := rfl

theorem createSegment_success (d d1 : Directory) (id : ℕ)
    (h : shmBufferCreateSegment d = .ok (d1, id)) :
    ∃ fseg rest, d.freeList = id :: rest ∧ d.segs[id]? = some fseg ∧
      SHMBUF_SEGMENT_EXISTS fseg.rev = false ∧
      d1.segSize = d.segSize ∧ d1.activeList = d.activeList ∧
      d1.freeList = rest ∧
      d1.segs = d.segs.set id
        (freshSegState d.segSize ((fseg.rev + 1) % UINT32_MOD)) := by
  rw [shmBufferCreateSegment] at h
  cases hfl : d.freeList with
  | nil => rw [hfl] at h; cases h
  | cons fid rest =>
    rw [hfl] at h
    cases hfseg : d.segs[fid]? with
    | none => simp only [hfseg] at h; cases h
    | some fseg =>
      simp only [hfseg] at h
      by_cases hrev : SHMBUF_SEGMENT_EXISTS fseg.rev = true
      · rw [if_pos hrev] at h; cases h
      · rw [if_neg hrev] at h
        obtain ⟨hd1, hid⟩ := Prod.mk.inj (Except.ok.inj h)
        subst hid
        refine ⟨fseg, rest, rfl, hfseg, by simpa using hrev, ?_, ?_, ?_, ?_⟩ <;>
          rw [← hd1]

theorem allocChunk_success (d : Directory) (n id off : ℕ) (d2 : Directory)
    (h : shmBufferAllocChunk d n = .ok (some (id, off, d2))) :
    ∃ seg seg',
      shmBufferAllocChunkFromSegment seg n = .ok (some (off, seg')) ∧
      d2.segs[id]? = some seg' ∧
      d2.segSize = d.segSize ∧
      ((∀ s ∈ d.segs, AlignedChunks s.chunks) → AlignedChunks seg.chunks) := by
  rw [shmBufferAllocChunk] at h
  revert h
  cases hscan : allocChunkScan d n d.activeList with
  | error e => intro h; cases h
  | ok r =>
    cases r with
    | some p =>
      simp only []
      intro h
      have hp := Option.some.inj (Except.ok.inj h)
      subst hp
      obtain ⟨seg, seg', hseg, halloc, hd2⟩ :=
        scan_success d n d.activeList id off d2 hscan
      have hlt := lt_length_of_getElem? d.segs id seg hseg
      refine ⟨seg, seg', halloc, ?_, ?_, ?_⟩
      · rw [hd2, updSeg_segs]
        exact List.getElem?_set_self hlt
      · rw [hd2, updSeg_segSize]
      · intro hall
        exact hall seg (List.getElem?_mem hseg)
    | none => intro h; cases h

/-- C9 (amended): for every request whose padded size does not overflow
`Size` (`header + n + trailer < 2 ^ 64` — the `chunk_sz` sum of
`__shmBufferAllocChunkFromSegment` is computed at uint64 and wraps, and
for larger `n` a call can succeed while returning far fewer than `n`
usable bytes), every successful `allocate(n)` returns the payload address
(chunk base + 40-byte header) of a chunk that is stamped with the request,
whose span covers header + `n` + trailer — so the payload has at least
`n` usable bytes — and whose chunk-base offset (not the returned payload
address itself) is a multiple of the chunk's size class. -/
theorem alloc_region_big_enough_and_chunk_aligned (d : Directory)
    (n addr : ℕ) (d' : Directory)
    (hn : CHUNK_HEADER_SZ + n + MAGIC_SZ < SIZE_MOD)
    (halign : ∀ s ∈ d.segs, AlignedChunks s.chunks)
    (h : shmbufAlloc d n = .ok (some addr, d')) :
    ∃ id off seg c,
      addr = id * d.segSize + off + CHUNK_HEADER_SZ ∧
      d'.segs[id]? = some seg ∧
      chunkAt seg.chunks off = some c ∧
      c.required = n ∧
      CHUNK_HEADER_SZ + n + MAGIC_SZ ≤ 2 ^ c.mclass ∧
      n ≤ 2 ^ c.mclass - CHUNK_HEADER_SZ - MAGIC_SZ ∧
      2 ^ c.mclass ∣ off := by
  rw [shmbufAlloc] at h
  revert h
  cases hch : shmBufferAllocChunk d n with
  | error e => intro h; cases h
  | ok r =>
    cases r with
    | none => intro h; cases h
    | some t =>
      obtain ⟨id, off, d2⟩ := t
      simp only []
      intro h
      obtain ⟨haddr, hd'⟩ := Prod.mk.inj (Except.ok.inj h)
      subst hd'
      have haddr' := Option.some.inj haddr
      subst haddr'
      obtain ⟨seg, seg', halloc, hsegq, -, hala⟩ :=
        allocChunk_success d n id off d2 hch
      obtain ⟨c, hcat, hcm, hcreq, hal⟩ :=
        allocFromSegment_success seg n off seg' halloc
      obtain ⟨-, hdvd⟩ := hal (hala halign)
      have hmod : (CHUNK_HEADER_SZ + n + MAGIC_SZ) % SIZE_MOD
          = CHUNK_HEADER_SZ + n + MAGIC_SZ := Nat.mod_eq_of_lt hn
      have hs := chunkClassOf_spans_request n
      rw [hmod] at hs
      refine ⟨id, off, seg', c, rfl, hsegq, hcat, hcreq, ?_, ?_, ?_⟩
      · rw [hcm]; exact hs
      · rw [hcm]
        rw [CHUNK_HEADER_SZ, MAGIC_SZ] at hs ⊢
        omega
      · rw [hcm]; exact hdvd

/-- C9, counterexample to the claim as stated: first, `allocate(1)` on a
fresh 32 MiB segment returns payload address 40 from a class-7 (128 B)
chunk at chunk offset 0 — the returned address, 40 bytes past the chunk
base, is not a multiple of the chunk's size class; second,
`allocate(2^64 - 20)` succeeds (the uint64 `chunk_sz` sum of
`__shmBufferAllocChunkFromSegment` wraps to 24, class 7) and returns a
128-byte chunk whose 84 usable bytes are far fewer than the requested
`n` — refuting "never returns a region smaller than `n` bytes". -/
theorem alloc_returned_address_not_class_aligned :
    (∃ d', shmbufAlloc dir32 1 = .ok (some 40, d') ∧
      ∃ seg c, d'.segs[0]? = some seg ∧ chunkAt seg.chunks 0 = some c ∧
        c.mclass = 7 ∧ ¬ (2 ^ c.mclass ∣ 40)) ∧
    (∃ d', shmbufAlloc dir32 (2 ^ 64 - 20) = .ok (some 40, d') ∧
      ∃ seg c, d'.segs[0]? = some seg ∧ chunkAt seg.chunks 0 = some c ∧
        c.mclass = 7 ∧ c.required = 2 ^ 64 - 20 ∧
        2 ^ c.mclass - CHUNK_HEADER_SZ - MAGIC_SZ < 2 ^ 64 - 20) := by
  refine ⟨⟨_, rfl, _, _, rfl, rfl, rfl, by decide⟩,
    _, rfl, _, _, rfl, rfl, rfl, rfl, by decide⟩

theorem alloc_region_big_enough_and_chunk_aligned_witness :
    ∃ d', shmbufAlloc dir32 1 = .ok (some 40, d') ∧
      ∃ id off seg c,
        (40 : ℕ) = id * dir32.segSize + off + CHUNK_HEADER_SZ ∧
        d'.segs[id]? = some seg ∧
        chunkAt seg.chunks off = some c ∧
        c.required = 1 ∧
        CHUNK_HEADER_SZ + 1 + MAGIC_SZ ≤ 2 ^ c.mclass ∧
        1 ≤ 2 ^ c.mclass - CHUNK_HEADER_SZ - MAGIC_SZ ∧
        2 ^ c.mclass ∣ off :=
  ⟨_, rfl, alloc_region_big_enough_and_chunk_aligned dir32 1 40 _
    (by norm_num [CHUNK_HEADER_SZ, MAGIC_SZ, SIZE_MOD]) (by decide) rfl⟩

/-! ### Partition ("conservation") machinery for the per-segment memory -/

theorem chunksOK_sumSpans (cs : List MChunk) (a s : ℕ)
    (h : chunksOK cs a s) : a + sumSpans cs = s := by
  induction cs generalizing a with
  | nil => simpa [chunksOK, sumSpans] using h
  | cons c cs ih =>
    obtain ⟨h1, h2⟩ := h
    have := ih (a + 2 ^ c.mclass) h2
    simp only [sumSpans, List.map_cons, List.sum_cons] at *
    omega

theorem sumSpans_cons (c : MChunk) (cs : List MChunk) :
    sumSpans (c :: cs) = 2 ^ c.mclass + sumSpans cs := by
  simp [sumSpans]

theorem chunksOK_append (xs ys : List MChunk) (a s : ℕ) :
    chunksOK (xs ++ ys) a s ↔
      chunksOK xs a (a + sumSpans xs) ∧ chunksOK ys (a + sumSpans xs) s := by
  induction xs generalizing a with
  | nil => simp [chunksOK, sumSpans]
  | cons c xs ih =>
    have hss : a + sumSpans (c :: xs) = a + 2 ^ c.mclass + sumSpans xs := by
      rw [sumSpans_cons]; omega
    constructor
    · rintro ⟨h1, h2⟩
      obtain ⟨h2a, h2b⟩ := (ih (a + 2 ^ c.mclass)).mp h2
      refine ⟨⟨h1, ?_⟩, ?_⟩
      · rw [hss]; exact h2a
      · rw [hss]; exact h2b
    · rintro ⟨⟨h1, h2⟩, h3⟩
      rw [hss] at h2 h3
      exact ⟨h1, (ih (a + 2 ^ c.mclass)).mpr ⟨h2, h3⟩⟩

theorem chunksOK_mem_bounds (cs : List MChunk) (a s : ℕ)
    (h : chunksOK cs a s) : ∀ e ∈ cs, a ≤ e.off ∧ e.off + 2 ^ e.mclass ≤ s := by
  intro e he
  obtain ⟨pre, post, rfl⟩ := List.append_of_mem he
  rw [chunksOK_append] at h
  have he1 : e.off = a + sumSpans pre := h.2.1
  have he2 : chunksOK post (a + sumSpans pre + 2 ^ e.mclass) s := h.2.2
  have hsum := chunksOK_sumSpans post (a + sumSpans pre + 2 ^ e.mclass) s he2
  constructor
  · omega
  · omega

theorem chunkAt_of_chunksOK (cs : List MChunk) (a s : ℕ)
    (h : chunksOK cs a s) (pre post : List MChunk) (c : MChunk)
    (heq : cs = pre ++ c :: post) : chunkAt cs c.off = some c := by
  subst heq
  induction pre generalizing a with
  | nil => simp [chunkAt]
  | cons p pre ih =>
    obtain ⟨h1, h2⟩ := h
    rw [List.cons_append, chunkAt]
    obtain ⟨hb1, -⟩ := chunksOK_mem_bounds (pre ++ c :: post)
      (a + 2 ^ p.mclass) s h2 c (by simp)
    have h2pos : 0 < 2 ^ p.mclass := Nat.pos_pow_of_pos _ (by norm_num)
    have hne : p.off ≠ c.off := by
      rw [h1]; omega
    rw [if_neg hne]
    exact ih (a + 2 ^ p.mclass) h2

theorem chunkAt_of_chunksOK_at (cs : List MChunk) (a s : ℕ)
    (h : chunksOK cs a s) (pre post : List MChunk) (c : MChunk)
    (heq : cs = pre ++ c :: post) (x : ℕ) (hx : c.off = x) :
    chunkAt cs x = some c := hx ▸ chunkAt_of_chunksOK cs a s h pre post c heq

theorem removeChunk_append_distrib (xs ys : List MChunk) (o : ℕ) :
    removeChunk (xs ++ ys) o = removeChunk xs o ++ removeChunk ys o := by
  induction xs with
  | nil => simp [removeChunk]
  | cons x xs ih =>
    rw [List.cons_append, removeChunk, removeChunk]
    split
    · exact ih
    · rw [List.cons_append, ih]

theorem removeChunk_of_forall_ne (xs : List MChunk) (o : ℕ)
    (h : ∀ e ∈ xs, e.off ≠ o) : removeChunk xs o = xs := by
  induction xs with
  | nil => rfl
  | cons x xs ih =>
    rw [removeChunk, if_neg (h x (List.mem_cons_self _ _)),
      ih (fun e he => h e (List.mem_cons_of_mem _ he))]

theorem setChunk_append_distrib (xs ys : List MChunk) (o : ℕ)
    (f : MChunk → MChunk) :
    setChunk (xs ++ ys) o f = setChunk xs o f ++ setChunk ys o f := by
  induction xs with
  | nil => simp [setChunk]
  | cons x xs ih => rw [List.cons_append, setChunk, setChunk, List.cons_append, ih]

theorem setChunk_of_forall_ne (xs : List MChunk) (o : ℕ) (f : MChunk → MChunk)
    (h : ∀ e ∈ xs, e.off ≠ o) : setChunk xs o f = xs := by
  induction xs with
  | nil => rfl
  | cons x xs ih =>
    rw [setChunk, if_neg (h x (List.mem_cons_self _ _)),
      ih (fun e he => h e (List.mem_cons_of_mem _ he))]

theorem replaceChunk2_append_distrib (xs ys : List MChunk) (o : ℕ)
    (c1 c2 : MChunk) :
    replaceChunk2 (xs ++ ys) o c1 c2 =
      replaceChunk2 xs o c1 c2 ++ replaceChunk2 ys o c1 c2 := by
  induction xs with
  | nil => simp [replaceChunk2]
  | cons x xs ih =>
    rw [List.cons_append, replaceChunk2, replaceChunk2]
    split
    · rw [ih]; rfl
    · rw [List.cons_append, ih]

theorem replaceChunk2_of_forall_ne (xs : List MChunk) (o : ℕ) (c1 c2 : MChunk)
    (h : ∀ e ∈ xs, e.off ≠ o) : replaceChunk2 xs o c1 c2 = xs := by
  induction xs with
  | nil => rfl
  | cons x xs ih =>
    rw [replaceChunk2, if_neg (h x (List.mem_cons_self _ _)),
      ih (fun e he => h e (List.mem_cons_of_mem _ he))]

/-- Decomposing a segment partition around the chunk found at `off`. -/
theorem chunksOK_decomp (cs : List MChunk) (s off : ℕ) (c : MChunk)
    (hOK : chunksOK cs 0 s) (hat : chunkAt cs off = some c) :
    ∃ pre post, cs = pre ++ c :: post ∧ c.off = off ∧
      sumSpans pre = off ∧ chunksOK post (off + 2 ^ c.mclass) s ∧
      (∀ e ∈ pre, e.off < off) ∧ (∀ e ∈ post, off + 2 ^ c.mclass ≤ e.off) := by
  obtain ⟨hmem, hoff⟩ := chunkAt_mem cs off c hat
  obtain ⟨pre, post, rfl⟩ := List.append_of_mem hmem
  rw [chunksOK_append] at hOK
  have hpre := hOK.1
  have hc1 : c.off = 0 + sumSpans pre := hOK.2.1
  have hpost : chunksOK post (0 + sumSpans pre + 2 ^ c.mclass) s := hOK.2.2
  have hsum : sumSpans pre = off := by omega
  refine ⟨pre, post, rfl, hoff, hsum, ?_, ?_, ?_⟩
  · rw [show off + 2 ^ c.mclass = 0 + sumSpans pre + 2 ^ c.mclass by omega]
    exact hpost
  · intro e he
    obtain ⟨-, hb⟩ := chunksOK_mem_bounds pre 0 (0 + sumSpans pre) hpre e he
    have h2pos : 0 < 2 ^ e.mclass := Nat.pos_pow_of_pos _ (by norm_num)
    omega
  · intro e he
    obtain ⟨hb, -⟩ := chunksOK_mem_bounds post
      (0 + sumSpans pre + 2 ^ c.mclass) s hpost e he
    omega

/-- In a partition, the chunk after `c` (when `c` does not touch the end of
the segment) starts exactly at `c`'s end and is found there by `chunkAt`. -/
theorem chunksOK_succ (cs : List MChunk) (s off : ℕ) (c : MChunk)
    (hOK : chunksOK cs 0 s) (hat : chunkAt cs off = some c)
    (hlt : off + 2 ^ c.mclass < s) :
    ∃ pre c2 post, cs = pre ++ c :: c2 :: post ∧ c.off = off ∧
      c2.off = off + 2 ^ c.mclass ∧
      chunkAt cs (off + 2 ^ c.mclass) = some c2 := by
  obtain ⟨pre, post, heq, hoff, hsum, hpost, hlo, hhi⟩ :=
    chunksOK_decomp cs s off c hOK hat
  cases post with
  | nil =>
    exfalso
    have := hpost
    rw [chunksOK] at this
    omega
  | cons c2 post2 =>
    have hc2 : c2.off = off + 2 ^ c.mclass := hpost.1
    refine ⟨pre, c2, post2, heq, hoff, hc2, ?_⟩
    have hOK2 : chunksOK (pre ++ c :: c2 :: post2) 0 s := by
      rw [← heq]; exact hOK
    rw [heq, ← hc2]
    exact chunkAt_of_chunksOK _ 0 s hOK2 (pre ++ [c]) post2 c2 (by simp)

/-- Coalescing two adjacent same-class chunks: erasing the higher header
and widening the lower one by one class keeps the partition intact. -/
theorem merge_adjacent_chunksOK (s : ℕ) (pre post : List MChunk)
    (lo hi : MChunk)
    (hOK : chunksOK (pre ++ lo :: hi :: post) 0 s)
    (hsame : hi.mclass = lo.mclass) :
    setChunk (removeChunk (pre ++ lo :: hi :: post) hi.off) lo.off
        (fun x => { x with mclass := lo.mclass + 1 })
      = pre ++ { lo with mclass := lo.mclass + 1 } :: post ∧
    chunksOK (pre ++ { lo with mclass := lo.mclass + 1 } :: post) 0 s := by
  have h := (chunksOK_append pre (lo :: hi :: post) 0 s).mp hOK
  have hpre := h.1
  have hlo : lo.off = 0 + sumSpans pre := h.2.1
  have hrest : chunksOK (hi :: post) (0 + sumSpans pre + 2 ^ lo.mclass) s :=
    h.2.2
  have hhi : hi.off = 0 + sumSpans pre + 2 ^ lo.mclass := hrest.1
  have hpost : chunksOK post
      (0 + sumSpans pre + 2 ^ lo.mclass + 2 ^ hi.mclass) s := hrest.2
  have hplo : 0 < 2 ^ lo.mclass := Nat.pos_pow_of_pos _ (by norm_num)
  have hphi : 0 < 2 ^ hi.mclass := Nat.pos_pow_of_pos _ (by norm_num)
  have hpre_lt : ∀ e ∈ pre, e.off < lo.off := by
    intro e he
    obtain ⟨-, hb⟩ := chunksOK_mem_bounds pre 0 (0 + sumSpans pre) hpre e he
    have h2pos : 0 < 2 ^ e.mclass := Nat.pos_pow_of_pos _ (by norm_num)
    omega
  have hpost_gt : ∀ e ∈ post, hi.off < e.off := by
    intro e he
    obtain ⟨hb, -⟩ := chunksOK_mem_bounds post
      (0 + sumSpans pre + 2 ^ lo.mclass + 2 ^ hi.mclass) s hpost e he
    omega
  have hlo_ne : lo.off ≠ hi.off := by omega
  have hres : setChunk (removeChunk (pre ++ lo :: hi :: post) hi.off) lo.off
      (fun x => { x with mclass := lo.mclass + 1 })
      = pre ++ { lo with mclass := lo.mclass + 1 } :: post := by
    rw [removeChunk_append_distrib,
      removeChunk_of_forall_ne pre hi.off
        (fun e he => by have := hpre_lt e he; omega),
      removeChunk, if_neg hlo_ne, removeChunk, if_pos rfl,
      removeChunk_of_forall_ne post hi.off
        (fun e he => by have := hpost_gt e he; omega),
      setChunk_append_distrib,
      setChunk_of_forall_ne pre lo.off _
        (fun e he => by have := hpre_lt e he; omega),
      setChunk, if_pos rfl,
      setChunk_of_forall_ne post lo.off _
        (fun e he => by have := hpost_gt e he; omega)]
  refine ⟨hres, (chunksOK_append pre _ 0 s).mpr ⟨hpre, ?_, ?_⟩⟩
  · exact hlo
  · have hsplit : 2 ^ (lo.mclass + 1) = 2 ^ lo.mclass + 2 ^ lo.mclass := by
      rw [pow_succ]; omega
    rw [show 0 + sumSpans pre + 2 ^ (lo.mclass + 1)
        = 0 + sumSpans pre + 2 ^ lo.mclass + 2 ^ hi.mclass by
      rw [hsame, hsplit]; omega]
    exact hpost

/-- The coalescing loop of `shmBufferFreeChunk` preserves the partition of
the segment, provided the current chunk really is the header found at
`off`. -/
theorem mergeLoop_chunksOK (s fuel : ℕ) :
    ∀ (chunks : List MChunk) (fl : ℕ → List ℕ) (off m : ℕ) (c : MChunk)
      (res : List MChunk × (ℕ → List ℕ) × ℕ × ℕ),
    chunksOK chunks 0 s →
    chunkAt chunks off = some c → c.mclass = m →
    mergeLoop s chunks fl off m fuel = .ok res →
    chunksOK res.1 0 s := by
  induction fuel with
  | zero =>
    intro chunks fl off m c res hOK hat hm h
    simp [mergeLoop] at h
  | succ k ih =>
    intro chunks fl off m c res hOK hat hm h
    rw [mergeLoop] at h
    split at h
    · cases h; exact hOK
    · split at h
      · -- bit m of off clear: the buddy lies above
        split at h
        · cases h; exact hOK
        · rename_i hblt
          split at h
          · cases h; exact hOK
          · rename_i bc hbc
            split at h
            · cases h
            · split at h
              · cases h; exact hOK
              · rename_i hmagic hmergeable
                push_neg at hmergeable
                obtain ⟨hbcm, hbl⟩ := hmergeable
                obtain ⟨pre, c2, post, heq, hcoff, hc2off, hat2⟩ :=
                  chunksOK_succ chunks s off c hOK hat (by rw [hm]; omega)
                rw [hm] at hat2 hc2off
                have hbceq : bc = c2 := by
                  rw [hat2] at hbc
                  exact (Option.some.inj hbc).symm
                subst hbceq
                have hOK2 : chunksOK (pre ++ c :: bc :: post) 0 s := by
                  rw [← heq]; exact hOK
                obtain ⟨hres, hOK3⟩ := merge_adjacent_chunksOK s pre post c bc
                  hOK2 (by rw [hbcm, hm])
                have hargs : setChunk (removeChunk chunks (off + 2 ^ m)) off
                    (fun x => { x with mclass := m + 1 })
                    = pre ++ { c with mclass := c.mclass + 1 } :: post := by
                  rw [heq, ← hc2off, ← hcoff, ← hm]
                  exact hres
                rw [hargs] at h
                have hOK4 : chunksOK
                    (pre ++ { c with mclass := c.mclass + 1 } :: post) 0 s :=
                  hOK3
                have hat4 := chunkAt_of_chunksOK_at _ 0 s hOK4 pre post
                  { c with mclass := c.mclass + 1 } rfl off hcoff
                exact ih _ (flSet fl bc.mclass ((fl bc.mclass).erase (off + 2 ^ m)))
                  off (m + 1) { c with mclass := c.mclass + 1 }
                  res hOK4 hat4 (by show c.mclass + 1 = m + 1; rw [hm]) h
      · -- bit m of off set: the buddy lies below
        rename_i hbit
        have hge : 2 ^ m ≤ off := by
          have hb : off.testBit m = true := by
            rcases Bool.eq_false_or_eq_true (off.testBit m) with hb | hb
            · exact hb
            · exact absurd hb hbit
          exact Nat.testBit_implies_ge hb
        split at h
        · cases h; exact hOK
        · rename_i bc hbc
          split at h
          · cases h
          · split at h
            · cases h; exact hOK
            · rename_i hmagic hmergeable
              push_neg at hmergeable
              obtain ⟨hbcm, hbl⟩ := hmergeable
              obtain ⟨hcmem, hcoff⟩ := chunkAt_mem chunks off c hat
              obtain ⟨-, hcbnd⟩ := chunksOK_mem_bounds chunks 0 s hOK c hcmem
              have hoffs : off < s := by
                have h2pos : 0 < 2 ^ c.mclass := Nat.pos_pow_of_pos _ (by norm_num)
                omega
              obtain ⟨pre, c2, post, heq, hbcoff, hc2off, hat2⟩ :=
                chunksOK_succ chunks s (off - 2 ^ m) bc hOK hbc
                  (by rw [hbcm]; omega)
              rw [hbcm] at hat2 hc2off
              rw [show off - 2 ^ m + 2 ^ m = off by omega] at hat2 hc2off
              have hc2eq : c2 = c := by
                rw [hat] at hat2
                exact (Option.some.inj hat2).symm
              subst hc2eq
              have hOK2 : chunksOK (pre ++ bc :: c2 :: post) 0 s := by
                rw [← heq]; exact hOK
              obtain ⟨hres, hOK3⟩ := merge_adjacent_chunksOK s pre post bc c2
                hOK2 (by rw [hm, hbcm])
              have hargs : setChunk (removeChunk chunks off) (off - 2 ^ m)
                  (fun x => { x with mclass := m + 1 })
                  = pre ++ { bc with mclass := bc.mclass + 1 } :: post := by
                rw [heq, ← hbcoff, ← hc2off, ← hbcm]
                exact hres
              rw [hargs] at h
              have hat4 := chunkAt_of_chunksOK_at _ 0 s hOK3 pre post
                { bc with mclass := bc.mclass + 1 } rfl (off - 2 ^ m) hbcoff
              exact ih _ (flSet fl bc.mclass ((fl bc.mclass).erase (off - 2 ^ m)))
                (off - 2 ^ m) (m + 1)
                { bc with mclass := bc.mclass + 1 } res hOK3 hat4
                (by show bc.mclass + 1 = m + 1; rw [hbcm]) h

theorem chunksOK_setChunk_congr (cs : List MChunk) (o : ℕ)
    (f : MChunk → MChunk)
    (hf : ∀ x, (f x).off = x.off ∧ (f x).mclass = x.mclass)
    (a s : ℕ) (h : chunksOK cs a s) : chunksOK (setChunk cs o f) a s := by
  induction cs generalizing a with
  | nil => exact h
  | cons c cs ih =>
    obtain ⟨h1, h2⟩ := h
    rw [setChunk]
    split
    · exact ⟨(hf c).1.trans h1, by rw [(hf c).2]; exact ih (a + 2 ^ c.mclass) h2⟩
    · exact ⟨h1, ih (a + 2 ^ c.mclass) h2⟩

theorem freeChunk_chunksOK (S : ℕ) (seg : SegState) (off : ℕ)
    (seg' : SegState) (b : Bool)
    (hOK : chunksOK seg.chunks 0 S)
    (h : shmBufferFreeChunk S seg off = .ok (seg', b)) :
    chunksOK seg'.chunks 0 S := by
  rw [shmBufferFreeChunk] at h
  revert h
  cases hat : chunkAt seg.chunks off with
  | none => intro h; cases h
  | some c =>
    simp only []
    split
    · cases hml : mergeLoop S seg.chunks seg.freeLists off c.mclass 34 with
      | error e => intro h; cases h
      | ok res =>
        obtain ⟨chunks2, fl2, off2, m2⟩ := res
        simp only []
        split
        · intro h; cases h
        · intro h
          have hOK2 := mergeLoop_chunksOK S 34 seg.chunks seg.freeLists off
            c.mclass c (chunks2, fl2, off2, m2) hOK hat rfl hml
          have hr : seg'.chunks = setChunk chunks2 off2
              (fun x => { x with linked := true }) := by
            obtain ⟨h1, -⟩ := Prod.mk.inj (Except.ok.inj h)
            rw [← h1]
          rw [hr]
          exact chunksOK_setChunk_congr chunks2 off2
            (fun x => { x with linked := true })
            (fun x => ⟨rfl, rfl⟩) 0 S hOK2
    · intro h; cases h

theorem splitPop_chunksOK (S : ℕ) (seg : SegState) (mclass : ℕ)
    (seg' : SegState) (hm : 1 ≤ mclass)
    (hOK : chunksOK seg.chunks 0 S)
    (h : splitPop seg mclass = .ok seg') : chunksOK seg'.chunks 0 S := by
  rw [splitPop] at h
  revert h
  cases hfl : seg.freeLists mclass with
  | nil => intro h; cases h
  | cons o rest =>
    cases hco : chunkAt seg.chunks o with
    | none => simp only [hco]; intro h; cases h
    | some c =>
      simp only [hco]
      split
      · rename_i hcm
        intro h
        have hchunks : seg'.chunks = replaceChunk2 seg.chunks o
            (freshFreeChunk o (mclass - 1))
            (freshFreeChunk (o + 2 ^ (mclass - 1)) (mclass - 1)) := by
          cases h; rfl
        rw [hchunks]
        obtain ⟨pre, post, heq, hcoff, hsum, hpost, hlo, hhi⟩ :=
          chunksOK_decomp seg.chunks S o c hOK hco
        rw [heq, replaceChunk2_append_distrib,
          replaceChunk2_of_forall_ne pre o _ _
            (fun e he => by have := hlo e he; omega),
          replaceChunk2, if_pos hcoff,
          replaceChunk2_of_forall_ne post o _ _ (by
            intro e he
            have := hhi e he
            have h2pos : 0 < 2 ^ c.mclass := Nat.pos_pow_of_pos _ (by norm_num)
            omega)]
        rw [heq, chunksOK_append] at hOK
        have hpre := hOK.1
        have hm1 : mclass - 1 + 1 = mclass := by omega
        have hsplit : 2 ^ (mclass - 1) + 2 ^ (mclass - 1) = 2 ^ mclass := by
          calc 2 ^ (mclass - 1) + 2 ^ (mclass - 1) = 2 ^ (mclass - 1) * 2 := by
                omega
            _ = 2 ^ (mclass - 1 + 1) := (pow_succ 2 (mclass - 1)).symm
            _ = 2 ^ mclass := by rw [hm1]
        refine (chunksOK_append pre _ 0 S).mpr ⟨hpre, ?_, ?_, ?_⟩
        · show o = 0 + sumSpans pre
          omega
        · show o + 2 ^ (mclass - 1) = 0 + sumSpans pre + 2 ^ (mclass - 1)
          omega
        · show chunksOK post
            (0 + sumSpans pre + 2 ^ (mclass - 1) + 2 ^ (mclass - 1)) S
          rw [show 0 + sumSpans pre + 2 ^ (mclass - 1) + 2 ^ (mclass - 1)
              = o + 2 ^ mclass by omega]
          rw [← hcm.1]
          exact hpost
      · intro h; cases h

theorem splitChunk_chunksOK (S fuel : ℕ) :
    ∀ (seg : SegState) (mclass : ℕ) (seg' : SegState),
    chunksOK seg.chunks 0 S →
    shmBufferSplitChunk seg mclass fuel = .ok (some seg') →
    chunksOK seg'.chunks 0 S := by
  induction fuel with
  | zero => intro seg mclass seg' hOK h; simp [shmBufferSplitChunk] at h
  | succ k ih =>
    intro seg mclass seg' hOK h
    rw [shmBufferSplitChunk] at h
    revert h
    split
    · rename_i hrange
      split
      · split
        · intro h; cases h
        · cases hrec : shmBufferSplitChunk seg (mclass + 1) k with
          | error e => intro h; cases h
          | ok r =>
            cases r with
            | none => intro h; cases h
            | some seg2 =>
              simp only []
              cases hsp : splitPop seg2 mclass with
              | error e => simp [Except.map]
              | ok s2 =>
                simp only [Except.map]
                intro h
                cases h
                exact splitPop_chunksOK S seg2 mclass _ (by omega)
                  (ih seg (mclass + 1) seg2 hOK hrec) hsp
      · cases hsp : splitPop seg mclass with
        | error e => simp [Except.map]
        | ok s2 =>
          simp only [Except.map]
          intro h
          cases h
          exact splitPop_chunksOK S seg mclass _ (by omega) hOK hsp
    · intro h; cases h

theorem allocFromSegment_chunksOK (S : ℕ) (seg : SegState) (n off : ℕ)
    (seg' : SegState)
    (hOK : chunksOK seg.chunks 0 S)
    (h : shmBufferAllocChunkFromSegment seg n = .ok (some (off, seg'))) :
    chunksOK seg'.chunks 0 S := by
  rw [shmBufferAllocChunkFromSegment] at h
  revert h
  split
  · intro h; cases h
  · cases hx : (if (seg.freeLists (chunkClassOf n)).isEmpty
                then shmBufferSplitChunk seg (chunkClassOf n + 1) 34
                else .ok (some seg)) with
    | error e => intro h; cases h
    | ok r =>
      cases r with
      | none => intro h; cases h
      | some seg2 =>
        have hOK2 : chunksOK seg2.chunks 0 S := by
          revert hx
          split
          · exact fun hx => splitChunk_chunksOK S 34 seg (chunkClassOf n + 1)
              seg2 hOK hx
          · intro hx; cases hx; exact hOK
        simp only []
        rw [allocPopChunk]
        cases hfl : seg2.freeLists (chunkClassOf n) with
        | nil => intro h; cases h
        | cons o rest =>
          cases hco : chunkAt seg2.chunks o with
          | none => simp only [hco]; intro h; cases h
          | some c =>
            simp only [hco]
            split
            · intro h
              have hchunks : seg'.chunks = setChunk seg2.chunks o (fun x => { x with linked := false, required := n, magic_tail := SHMBUF_CHUNK_MAGIC_CODE }) := by
                cases h; rfl
              rw [hchunks]
              exact chunksOK_setChunk_congr seg2.chunks o
                (fun x => { x with linked := false, required := n, magic_tail := SHMBUF_CHUNK_MAGIC_CODE })
                (fun x => ⟨rfl, rfl⟩) 0 S hOK2
            · intro h; cases h

theorem initLoop_chunksOK (s : ℕ) :
    ∀ (fuel m off : ℕ),
    s - off + m + 1 ≤ fuel →
    2 ^ SHMBUF_CHUNKSZ_MIN_BIT ∣ (s - off) →
    off ≤ s →
    (m < SHMBUF_CHUNKSZ_MIN_BIT → off = s) →
    chunksOK (initLoop s fuel m off) off s := by
  intro fuel
  induction fuel with
  | zero => intro m off hf; omega
  | succ k ih =>
    intro m off hf hdvd hle hsmall
    rw [initLoop]
    split
    · rename_i hm
      exact hsmall hm
    · rename_i hm
      rw [MIN_BIT_eq] at hm hsmall
      have hdvd2 : 2 ^ SHMBUF_CHUNKSZ_MIN_BIT ∣ 2 ^ m := by
        rw [MIN_BIT_eq]
        exact pow_dvd_pow 2 (by omega)
      have h2pos : 0 < 2 ^ m := Nat.pos_pow_of_pos _ (by norm_num)
      split
      · rename_i hfit
        refine ⟨rfl, ?_⟩
        have hd : 2 ^ SHMBUF_CHUNKSZ_MIN_BIT ∣ (s - (off + 2 ^ m)) := by
          rw [show s - (off + 2 ^ m) = s - off - 2 ^ m by omega]
          exact Nat.dvd_sub' hdvd hdvd2
        exact ih m (off + 2 ^ m) (by omega) hd (by omega)
          (fun hlt => by rw [MIN_BIT_eq] at hlt; omega)
      · rename_i hfit
        apply ih (m - 1) off (by omega) hdvd hle
        intro hlt
        rw [MIN_BIT_eq] at hlt
        have hm7 : m = 7 := by omega
        have hsmallrem : s - off < 2 ^ m := by omega
        have := Nat.eq_zero_of_dvd_of_lt hdvd ?_
        · omega
        · rw [MIN_BIT_eq]
          rcases Nat.eq_zero_or_pos (s - off) with hz | hp
          · omega
          · calc s - off < 2 ^ m := hsmallrem
              _ = 2 ^ 7 := by rw [hm7]


/-- C6: segment-space conservation.  (1) Segment initialization tiles the
whole segment: the chunk headers partition `[0, S)` and their spans sum to
`S` (for the configured sizes, which are multiples of the minimum chunk
size).  (2)-(4) Splitting, allocating, and freeing-with-coalescing all
preserve the partition — hence the sum over all chunks, active and free, of
`2^mclass` stays equal to the segment size at every point between
operations. -/
theorem segment_space_conservation (S : ℕ) :
    (2 ^ SHMBUF_CHUNKSZ_MIN_BIT ∣ S →
       chunksOK (initSegmentChunks S) 0 S ∧
       sumSpans (initSegmentChunks S) = S) ∧
    (∀ (seg : SegState) (mclass fuel : ℕ) (seg' : SegState),
       chunksOK seg.chunks 0 S →
       shmBufferSplitChunk seg mclass fuel = .ok (some seg') →
       sumSpans seg'.chunks = S ∧ chunksOK seg'.chunks 0 S) ∧
    (∀ (seg : SegState) (n off : ℕ) (seg' : SegState),
       chunksOK seg.chunks 0 S →
       shmBufferAllocChunkFromSegment seg n = .ok (some (off, seg')) →
       sumSpans seg'.chunks = S ∧ chunksOK seg'.chunks 0 S) ∧
    (∀ (seg : SegState) (off : ℕ) (seg' : SegState) (b : Bool),
       chunksOK seg.chunks 0 S →
       shmBufferFreeChunk S seg off = .ok (seg', b) →
       sumSpans seg'.chunks = S ∧ chunksOK seg'.chunks 0 S) := by
  have hsum : ∀ cs, chunksOK cs 0 S → sumSpans cs = S := by
    intro cs h
    have := chunksOK_sumSpans cs 0 S h
    omega
  refine ⟨?_, ?_, ?_, ?_⟩
  · intro hdvd
    have hOK : chunksOK (initSegmentChunks S) 0 S := by
      apply initLoop_chunksOK S (S + 34) SHMBUF_CHUNKSZ_MAX_BIT 0
      · rw [MAX_BIT_eq]; omega
      · simpa using hdvd
      · omega
      · intro hlt
        rw [MIN_BIT_eq, MAX_BIT_eq] at hlt
        omega
    exact ⟨hOK, hsum _ hOK⟩
  · intro seg mclass fuel seg' hOK h
    have := splitChunk_chunksOK S fuel seg mclass seg' hOK h
    exact ⟨hsum _ this, this⟩
  · intro seg n off seg' hOK h
    have := allocFromSegment_chunksOK S seg n off seg' hOK h
    exact ⟨hsum _ this, this⟩
  · intro seg off seg' b hOK h
    have := freeChunk_chunksOK S seg off seg' b hOK h
    exact ⟨hsum _ this, this⟩

theorem segment_space_conservation_witness :
    (chunksOK (initSegmentChunks 256) 0 256 ∧
     sumSpans (initSegmentChunks 256) = 256) ∧
    (∃ seg', shmBufferSplitChunk (freshSegState 256 1) 8 34 = .ok (some seg') ∧
       sumSpans seg'.chunks = 256) ∧
    (∃ off seg', shmBufferAllocChunkFromSegment (freshSegState 256 1) 50
       = .ok (some (off, seg')) ∧ sumSpans seg'.chunks = 256) ∧
    (∃ seg1 seg2 b,
       shmBufferAllocChunkFromSegment (freshSegState 256 1) 50
         = .ok (some (0, seg1)) ∧
       shmBufferFreeChunk 256 seg1 0 = .ok (seg2, b) ∧
       sumSpans seg2.chunks = 256) := by
  refine ⟨?_, ?_, ?_, ?_⟩
  · exact (segment_space_conservation 256).1 (by decide)
  · exact ⟨_, rfl, ((segment_space_conservation 256).2.1 (freshSegState 256 1)
      8 34 _ (by decide) rfl).1⟩
  · exact ⟨_, _, rfl, ((segment_space_conservation 256).2.2.1
      (freshSegState 256 1) 50 0 _ (by decide) rfl).1⟩
  · have h3 := (segment_space_conservation 256).2.2.1
      (freshSegState 256 1) 50 0 _ (by decide) rfl
    refine ⟨_, _, _, rfl, rfl, ?_⟩
    exact ((segment_space_conservation 256).2.2.2 _ 0 _ _ h3.2 rfl).1

/-! ### Revision bookkeeping lemmas for the lifecycle claims -/

theorem revAt_segs_set (d d' : Directory) (id : ℕ) (s : SegState)
    (hs : d'.segs = d.segs.set id s) (hlt : id < d.segs.length) :
    revAt d' id = s.rev ∧ ∀ j, j ≠ id → revAt d' j = revAt d j := by
  constructor
  · rw [revAt, hs, List.getElem?_set_self hlt]
    rfl
  · intro j hj
    rw [revAt, hs, List.getElem?_set_ne (fun he => hj he.symm), revAt]

theorem splitPop_rev (seg : SegState) (mclass : ℕ) (seg' : SegState)
    (h : splitPop seg mclass = .ok seg') :
    seg'.rev = seg.rev ∧ seg'.num_actives = seg.num_actives := by
  rw [splitPop] at h
  revert h
  cases hfl : seg.freeLists mclass with
  | nil => intro h; cases h
  | cons o rest =>
    cases hco : chunkAt seg.chunks o with
    | none => simp only [hco]; intro h; cases h
    | some c =>
      simp only [hco]
      split
      · intro h; cases h; exact ⟨rfl, rfl⟩
      · intro h; cases h

theorem splitChunk_rev (fuel : ℕ) :
    ∀ (seg : SegState) (mclass : ℕ) (seg' : SegState),
    shmBufferSplitChunk seg mclass fuel = .ok (some seg') →
    seg'.rev = seg.rev ∧ seg'.num_actives = seg.num_actives := by
  induction fuel with
  | zero => intro seg mclass seg' h; simp [shmBufferSplitChunk] at h
  | succ k ih =>
    intro seg mclass seg' h
    rw [shmBufferSplitChunk] at h
    revert h
    split
    · split
      · split
        · intro h; cases h
        · cases hrec : shmBufferSplitChunk seg (mclass + 1) k with
          | error e => intro h; cases h
          | ok r =>
            cases r with
            | none => intro h; cases h
            | some seg2 =>
              simp only []
              cases hsp : splitPop seg2 mclass with
              | error e => simp [Except.map]
              | ok s2 =>
                simp only [Except.map]
                intro h
                cases h
                obtain ⟨h1, h2⟩ := splitPop_rev seg2 mclass _ hsp
                obtain ⟨h3, h4⟩ := ih seg (mclass + 1) seg2 hrec
                exact ⟨h1.trans h3, h2.trans h4⟩
      · cases hsp : splitPop seg mclass with
        | error e => simp [Except.map]
        | ok s2 =>
          simp only [Except.map]
          intro h
          cases h
          exact splitPop_rev seg mclass _ hsp
    · intro h; cases h

theorem allocFromSegment_rev (seg : SegState) (n off : ℕ) (seg' : SegState)
    (h : shmBufferAllocChunkFromSegment seg n = .ok (some (off, seg'))) :
    seg'.rev = seg.rev ∧ seg'.num_actives = seg.num_actives + 1 := by
  rw [shmBufferAllocChunkFromSegment] at h
  revert h
  split
  · intro h; cases h
  · cases hx : (if (seg.freeLists (chunkClassOf n)).isEmpty
                then shmBufferSplitChunk seg (chunkClassOf n + 1) 34
                else .ok (some seg)) with
    | error e => intro h; cases h
    | ok r =>
      cases r with
      | none => intro h; cases h
      | some seg2 =>
        have h2 : seg2.rev = seg.rev ∧ seg2.num_actives = seg.num_actives := by
          revert hx
          split
          · exact fun hx => splitChunk_rev 34 seg (chunkClassOf n + 1) seg2 hx
          · intro hx; cases hx; exact ⟨rfl, rfl⟩
        simp only []
        rw [allocPopChunk]
        cases hfl : seg2.freeLists (chunkClassOf n) with
        | nil => intro h; cases h
        | cons o rest =>
          cases hco : chunkAt seg2.chunks o with
          | none => simp only [hco]; intro h; cases h
          | some c =>
            simp only [hco]
            split
            · intro h
              obtain ⟨-, hsegeq⟩ := Prod.mk.inj (Option.some.inj (Except.ok.inj h))
              rw [← hsegeq]
              exact ⟨h2.1, by rw [h2.2]⟩
            · intro h; cases h

theorem freeChunk_rev (S : ℕ) (seg : SegState) (off : ℕ)
    (seg' : SegState) (b : Bool)
    (h : shmBufferFreeChunk S seg off = .ok (seg', b)) :
    seg'.rev = seg.rev ∧ 1 ≤ seg.num_actives ∧
    seg'.num_actives = seg.num_actives - 1 ∧
    (b = true ↔ seg.num_actives - 1 = 0) := by
  rw [shmBufferFreeChunk] at h
  revert h
  cases hat : chunkAt seg.chunks off with
  | none => intro h; cases h
  | some c =>
    simp only []
    split
    · cases hml : mergeLoop S seg.chunks seg.freeLists off c.mclass 34 with
      | error e => intro h; cases h
      | ok res =>
        obtain ⟨chunks2, fl2, off2, m2⟩ := res
        simp only []
        split
        · intro h; cases h
        · rename_i hna
          intro h
          obtain ⟨h1, h2⟩ := Prod.mk.inj (Except.ok.inj h)
          rw [← h1, ← h2]
          refine ⟨rfl, by omega, rfl, ?_⟩
          simp [beq_iff_eq]
    · intro h; cases h

theorem scan_mem (d : Directory) (n : ℕ) (ids : List ℕ)
    (id off : ℕ) (d2 : Directory)
    (h : allocChunkScan d n ids = .ok (some (id, off, d2))) : id ∈ ids := by
  induction ids with
  | nil => simp [allocChunkScan] at h
  | cons j ids ih =>
    rw [allocChunkScan] at h
    revert h
    cases hseg : d.segs[j]? with
    | none => intro h; cases h
    | some seg =>
      simp only []
      cases halloc : shmBufferAllocChunkFromSegment seg n with
      | error e => intro h; cases h
      | ok r =>
        cases r with
        | none => intro h; exact List.mem_cons_of_mem _ (ih h)
        | some p =>
          obtain ⟨off2, seg2⟩ := p
          intro h
          obtain ⟨hj, -⟩ := Prod.mk.inj (Option.some.inj (Except.ok.inj h))
          exact hj ▸ List.mem_cons_self _ _

theorem shmbufFree_success (d : Directory) (addr : ℕ) (d' : Directory)
    (h : shmbufFree d addr = .ok d') :
    ∃ seg seg' b,
      d.segs[(addr - CHUNK_HEADER_SZ) / d.segSize]? = some seg ∧
      shmBufferFreeChunk d.segSize seg ((addr - CHUNK_HEADER_SZ) % d.segSize)
        = .ok (seg', b) ∧
      ((b = true ∧
        d' = { d with
          activeList :=
            d.activeList.erase ((addr - CHUNK_HEADER_SZ) / d.segSize),
          freeList := (addr - CHUNK_HEADER_SZ) / d.segSize :: d.freeList,
          segs := d.segs.set ((addr - CHUNK_HEADER_SZ) / d.segSize)
            (shmBufferDropSegment seg') }) ∨
       (b = false ∧
        d' = updSeg d ((addr - CHUNK_HEADER_SZ) / d.segSize) seg')) := by
  rw [shmbufFree] at h
  revert h
  cases hseg : d.segs[(addr - CHUNK_HEADER_SZ) / d.segSize]? with
  | none => intro h; cases h
  | some seg =>
    simp only []
    cases hfc : shmBufferFreeChunk d.segSize seg
        ((addr - CHUNK_HEADER_SZ) % d.segSize) with
    | error e => intro h; cases h
    | ok r =>
      obtain ⟨seg', b⟩ := r
      simp only []
      cases b with
      | true =>
        rw [if_pos rfl]
        intro h
        exact ⟨seg, seg', true, rfl, hfc, Or.inl ⟨rfl, (Except.ok.inj h).symm⟩⟩
      | false =>
        rw [if_neg (by simp)]
        intro h
        exact ⟨seg, seg', false, rfl, hfc, Or.inr ⟨rfl, (Except.ok.inj h).symm⟩⟩

theorem segExists_false_even (r : ℕ) (h : SHMBUF_SEGMENT_EXISTS r = false) :
    r % 2 = 0 := by
  simp only [SHMBUF_SEGMENT_EXISTS, decide_eq_false_iff_not] at h
  omega

theorem revAt_some (d : Directory) (id : ℕ) (seg : SegState)
    (h : d.segs[id]? = some seg) : revAt d id = seg.rev := by
  rw [revAt, h]
  rfl

theorem dirInv_init (segSize n : ℕ) : DirInv (initDir segSize n) := by
  refine ⟨List.nodup_range n, List.nodup_nil, ?_, ?_, ?_⟩
  · intro id hid
    rw [initDir] at hid ⊢
    simp only [List.mem_range] at hid
    have hlen : (List.replicate n emptySlot).length = n := List.length_replicate _ _
    have hsome : (List.replicate n emptySlot)[id]? = some emptySlot := by
      rw [List.getElem?_eq_getElem (by omega)]
      rw [List.getElem_replicate]
    refine ⟨by rw [hlen]; omega, ?_, ?_⟩
    · rw [revAt]
      simp only [hsome]
      rfl
    · intro seg hseg
      rw [hsome] at hseg
      cases hseg
      rfl
  · intro id hlt hnot
    exfalso
    rw [initDir] at hlt hnot
    simp only [List.length_replicate] at hlt
    exact hnot (List.mem_range.mpr hlt)
  · intro id hid
    rw [initDir] at hid
    simp at hid

theorem mod_u32_parity (r : ℕ) : r % UINT32_MOD % 2 = r % 2 :=
  Nat.mod_mod_of_dvd r (by norm_num [UINT32_MOD])

theorem dirInv_createSegment (d d1 : Directory) (id : ℕ)
    (hInv : DirInv d) (h : shmBufferCreateSegment d = .ok (d1, id)) :
    DirInv d1 := by
  obtain ⟨fseg, rest, hfl, hfseg, hfrev, hsz, hact, hfl1, hsegs⟩ :=
    createSegment_success d d1 id h
  obtain ⟨hnf, hna, hfree, hodd, hdisj⟩ := hInv
  have hlt := lt_length_of_getElem? d.segs id fseg hfseg
  have hlen : d1.segs.length = d.segs.length := by
    rw [hsegs, List.length_set]
  have hidnotrest : id ∉ rest := by
    rw [hfl] at hnf
    exact (List.nodup_cons.mp hnf).1
  obtain ⟨hrself, hrne⟩ := revAt_segs_set d d1 id
    (freshSegState d.segSize ((fseg.rev + 1) % UINT32_MOD)) hsegs hlt
  refine ⟨?_, ?_, ?_, ?_, ?_⟩
  · rw [hfl1]
    rw [hfl] at hnf
    exact (List.nodup_cons.mp hnf).2
  · rw [hact]; exact hna
  · intro j hj
    rw [hfl1] at hj
    have hjmem : j ∈ d.freeList := by rw [hfl]; exact List.mem_cons_of_mem _ hj
    obtain ⟨hjlt, hjeven, hjnum⟩ := hfree j hjmem
    have hjne : j ≠ id := fun he => hidnotrest (he ▸ hj)
    refine ⟨by omega, by rw [hrne j hjne]; exact hjeven, ?_⟩
    intro seg hseg
    rw [hsegs, List.getElem?_set_ne (fun he => hjne he.symm)] at hseg
    exact hjnum seg hseg
  · intro j hjlt hjnot
    rw [hfl1] at hjnot
    rw [hlen] at hjlt
    by_cases hje : j = id
    · subst hje
      rw [hrself]
      have := segExists_false_even fseg.rev hfrev
      show (fseg.rev + 1) % UINT32_MOD % 2 = 1
      rw [mod_u32_parity]
      omega
    · rw [hrne j hje]
      apply hodd j hjlt
      rw [hfl]
      intro hmem
      rcases List.mem_cons.mp hmem with he | hm
      · exact hje he
      · exact hjnot hm
  · intro a ha
    rw [hact] at ha
    rw [hfl1]
    have := hdisj a ha
    rw [hfl] at this
    intro hmem
    exact this (List.mem_cons_of_mem _ hmem)

theorem dirInv_updSeg_nonfree (d : Directory) (id : ℕ) (seg seg' : SegState)
    (hInv : DirInv d) (hidnotfree : id ∉ d.freeList)
    (hsegq : d.segs[id]? = some seg) (hrev : seg'.rev = seg.rev) :
    DirInv (updSeg d id seg') := by
  obtain ⟨hnf, hna, hfree, hodd, hdisj⟩ := hInv
  have hlt := lt_length_of_getElem? d.segs id seg hsegq
  obtain ⟨hrself, hrne⟩ := revAt_segs_set d (updSeg d id seg') id seg'
    (updSeg_segs d id seg') hlt
  have hlen : (updSeg d id seg').segs.length = d.segs.length := by
    rw [updSeg_segs, List.length_set]
  refine ⟨hnf, hna, ?_, ?_, hdisj⟩
  · intro j hj
    obtain ⟨hjlt, hjeven, hjnum⟩ := hfree j hj
    have hjne : j ≠ id := fun he => hidnotfree (he ▸ hj)
    refine ⟨by omega, by rw [hrne j hjne]; exact hjeven, ?_⟩
    intro s2 hs2
    rw [updSeg_segs, List.getElem?_set_ne (fun he => hjne he.symm)] at hs2
    exact hjnum s2 hs2
  · intro j hjlt hjnot
    rw [hlen] at hjlt
    by_cases hje : j = id
    · subst hje
      rw [hrself, hrev, ← revAt_some d j seg hsegq]
      exact hodd j hjlt hidnotfree
    · rw [hrne j hje]
      exact hodd j hjlt hjnot

theorem dirInv_allocChunk (d : Directory) (n id off : ℕ) (d2 : Directory)
    (hInv : DirInv d) (h : shmBufferAllocChunk d n = .ok (some (id, off, d2))) :
    DirInv d2 := by
  rw [shmBufferAllocChunk] at h
  revert h
  cases hscan : allocChunkScan d n d.activeList with
  | error e => intro h; cases h
  | ok r =>
    cases r with
    | some p =>
      simp only []
      intro h
      have hp := Option.some.inj (Except.ok.inj h)
      subst hp
      obtain ⟨seg, seg', hseg, halloc, hd2⟩ :=
        scan_success d n d.activeList id off d2 hscan
      have hmem := scan_mem d n d.activeList id off d2 hscan
      rw [hd2]
      exact dirInv_updSeg_nonfree d id seg seg' hInv
        (hInv.2.2.2.2 id hmem) hseg
        (allocFromSegment_rev seg n off seg' halloc).1
    | none => intro h; cases h

theorem dirInv_shmbufAlloc (d : Directory) (sz : ℕ) (p : Option ℕ)
    (d' : Directory)
    (hInv : DirInv d) (h : shmbufAlloc d sz = .ok (p, d')) : DirInv d' := by
  rw [shmbufAlloc] at h
  revert h
  cases hch : shmBufferAllocChunk d sz with
  | error e => intro h; cases h
  | ok r =>
    cases r with
    | none =>
      intro h
      obtain ⟨-, hd⟩ := Prod.mk.inj (Except.ok.inj h)
      rw [← hd]
      exact hInv
    | some t =>
      obtain ⟨id, off, d2⟩ := t
      simp only []
      intro h
      obtain ⟨-, hd⟩ := Prod.mk.inj (Except.ok.inj h)
      rw [← hd]
      exact dirInv_allocChunk d sz id off d2 hInv hch

theorem dirInv_shmbufFree (d : Directory) (addr : ℕ) (d' : Directory)
    (hInv : DirInv d) (h : shmbufFree d addr = .ok d') : DirInv d' := by
  obtain ⟨seg, seg', b, hseg, hfc, hcase⟩ := shmbufFree_success d addr d' h
  obtain ⟨hrev, hge, hnum, hbe⟩ := freeChunk_rev _ _ _ _ _ hfc
  obtain ⟨hnf, hna, hfree, hodd, hdisj⟩ := hInv
  have hlt := lt_length_of_getElem? d.segs
    ((addr - CHUNK_HEADER_SZ) / d.segSize) seg hseg
  have hidnotfree : (addr - CHUNK_HEADER_SZ) / d.segSize ∉ d.freeList := by
    intro hmem
    obtain ⟨-, -, hnum0⟩ := hfree _ hmem
    have := hnum0 seg hseg
    omega
  rcases hcase with ⟨hb, hd⟩ | ⟨hb, hd⟩
  · subst hb
    have hnum0 : seg'.num_actives = 0 := by
      have := hbe.mp rfl
      omega
    have hsodd : seg.rev % 2 = 1 := by
      rw [← revAt_some d _ seg hseg]
      exact hodd _ hlt hidnotfree
    have hsegs' : d'.segs = d.segs.set ((addr - CHUNK_HEADER_SZ) / d.segSize)
        (shmBufferDropSegment seg') := by rw [hd]
    have hact' : d'.activeList
        = d.activeList.erase ((addr - CHUNK_HEADER_SZ) / d.segSize) := by
      rw [hd]
    have hfl' : d'.freeList
        = (addr - CHUNK_HEADER_SZ) / d.segSize :: d.freeList := by rw [hd]
    obtain ⟨hrself, hrne⟩ := revAt_segs_set d d'
      ((addr - CHUNK_HEADER_SZ) / d.segSize) (shmBufferDropSegment seg')
      hsegs' hlt
    have hlen' : d'.segs.length = d.segs.length := by
      rw [hsegs', List.length_set]
    refine ⟨?_, ?_, ?_, ?_, ?_⟩
    · rw [hfl']
      exact List.nodup_cons.mpr ⟨hidnotfree, hnf⟩
    · rw [hact']
      exact hna.erase _
    · intro j hj
      rw [hfl'] at hj
      rcases List.mem_cons.mp hj with rfl | hm
      · refine ⟨by omega, ?_, ?_⟩
        · rw [hrself]
          show (seg'.rev + 1) % UINT32_MOD % 2 = 0
          rw [mod_u32_parity]
          omega
        · intro s2 hs2
          rw [hsegs', List.getElem?_set_self hlt] at hs2
          cases hs2
          exact hnum0
      · obtain ⟨hjlt, hjeven, hjnum⟩ := hfree j hm
        have hjne : j ≠ (addr - CHUNK_HEADER_SZ) / d.segSize :=
          fun he => hidnotfree (he ▸ hm)
        refine ⟨by omega, by rw [hrne j hjne]; exact hjeven, ?_⟩
        intro s2 hs2
        rw [hsegs', List.getElem?_set_ne (fun he => hjne he.symm)] at hs2
        exact hjnum s2 hs2
    · intro j hjlt hjnot
      rw [hfl'] at hjnot
      rw [hlen'] at hjlt
      have hjne : j ≠ (addr - CHUNK_HEADER_SZ) / d.segSize :=
        fun he => hjnot (he ▸ List.mem_cons_self _ _)
      have hjnotfree : j ∉ d.freeList :=
        fun hm => hjnot (List.mem_cons_of_mem _ hm)
      rw [hrne j hjne]
      exact hodd j hjlt hjnotfree
    · intro a ha
      rw [hact'] at ha
      rw [hfl']
      obtain ⟨hane, ham⟩ := (List.Nodup.mem_erase_iff hna).mp ha
      intro hmem
      rcases List.mem_cons.mp hmem with he | hm
      · exact hane he
      · exact hdisj a ham hm
  · subst hd
    exact dirInv_updSeg_nonfree d _ seg seg'
      ⟨hnf, hna, hfree, hodd, hdisj⟩ hidnotfree hseg hrev

theorem dirInv_step (d d' : Directory) (hInv : DirInv d)
    (h : DirStep d d') : DirInv d' := by
  cases h with
  | startupCreate id hcr => exact dirInv_createSegment d d' id hInv hcr
  | alloc sz p ha => exact dirInv_shmbufAlloc d sz p d' hInv ha
  | free addr hf => exact dirInv_shmbufFree d addr d' hInv hf

theorem dirInv_reachable (d : Directory) (h : DirReachable d) : DirInv d := by
  induction h with
  | init segSize n => exact dirInv_init segSize n
  | step hr hs ih => exact dirInv_step _ _ ih hs

theorem createSegment_revAt (d d1 : Directory) (id : ℕ)
    (h : shmBufferCreateSegment d = .ok (d1, id)) :
    revAt d1 id = (revAt d id + 1) % UINT32_MOD ∧ revAt d id % 2 = 0 ∧
    ∀ j, j ≠ id → revAt d1 j = revAt d j := by
  obtain ⟨fseg, rest, hfl, hfseg, hfrev, hsz, hactL, hfl1, hsegs⟩ :=
    createSegment_success d d1 id h
  have hlt := lt_length_of_getElem? d.segs id fseg hfseg
  obtain ⟨hrself, hrne⟩ := revAt_segs_set d d1 id
    (freshSegState d.segSize ((fseg.rev + 1) % UINT32_MOD)) hsegs hlt
  have hold : revAt d id = fseg.rev := revAt_some d id fseg hfseg
  refine ⟨?_, ?_, hrne⟩
  · rw [hrself, hold]
    rfl
  · rw [hold]
    exact segExists_false_even fseg.rev hfrev

theorem shmbufFree_revAt (d : Directory) (addr : ℕ) (d' : Directory)
    (hInv : DirInv d) (h : shmbufFree d addr = .ok d') :
    ∀ id, revAt d' id = revAt d id ∨
      (revAt d' id = (revAt d id + 1) % UINT32_MOD ∧ revAt d' id % 2 = 0) := by
  obtain ⟨seg, seg', b, hseg, hfc, hcase⟩ := shmbufFree_success d addr d' h
  obtain ⟨hrev, hge, hnum, hbe⟩ := freeChunk_rev _ _ _ _ _ hfc
  obtain ⟨hnf, hna, hfree, hodd, hdisj⟩ := hInv
  have hlt := lt_length_of_getElem? d.segs
    ((addr - CHUNK_HEADER_SZ) / d.segSize) seg hseg
  have hidnotfree : (addr - CHUNK_HEADER_SZ) / d.segSize ∉ d.freeList := by
    intro hmem
    obtain ⟨-, -, hnum0⟩ := hfree _ hmem
    have := hnum0 seg hseg
    omega
  have hsodd : seg.rev % 2 = 1 := by
    rw [← revAt_some d _ seg hseg]
    exact hodd _ hlt hidnotfree
  rcases hcase with ⟨hb, hd⟩ | ⟨hb, hd⟩
  · have hsegs' : d'.segs = d.segs.set ((addr - CHUNK_HEADER_SZ) / d.segSize)
        (shmBufferDropSegment seg') := by rw [hd]
    obtain ⟨hrself, hrne⟩ := revAt_segs_set d d'
      ((addr - CHUNK_HEADER_SZ) / d.segSize) (shmBufferDropSegment seg')
      hsegs' hlt
    intro id
    by_cases hid : id = (addr - CHUNK_HEADER_SZ) / d.segSize
    · rw [hid, revAt_some d _ seg hseg]
      refine Or.inr ⟨?_, ?_⟩
      · rw [hrself]
        show (seg'.rev + 1) % UINT32_MOD = (seg.rev + 1) % UINT32_MOD
        rw [hrev]
      · rw [hrself]
        show (seg'.rev + 1) % UINT32_MOD % 2 = 0
        rw [mod_u32_parity]
        omega
    · exact Or.inl (hrne id hid)
  · subst hd
    obtain ⟨hrself, hrne⟩ := revAt_segs_set d
      (updSeg d ((addr - CHUNK_HEADER_SZ) / d.segSize) seg')
      ((addr - CHUNK_HEADER_SZ) / d.segSize) seg' rfl hlt
    intro id
    by_cases hid : id = (addr - CHUNK_HEADER_SZ) / d.segSize
    · refine Or.inl ?_
      rw [hid, revAt_some d _ seg hseg, hrself, hrev]
    · exact Or.inl (hrne id hid)

/-- C7, counterexample to the claim as stated: `seg->revision` is a
`pg_atomic_uint32`, so the create/drop increments wrap at `2 ^ 32`.
Creating a segment in a slot whose (even) revision is `2 ^ 32 - 2` yields
revision `2 ^ 32 - 1`; dropping that segment stores
`(2 ^ 32 - 1 + 1) % 2 ^ 32 = 0` — not an increase by one — and `0` is the
initial revision of every slot, so the value is reused for the slot by the
following create/drop cycle. -/
theorem revision_counter_wraps_and_reuses :
    (∃ d1, shmBufferCreateSegment
        ⟨4, [], [0], [⟨2 ^ 32 - 2, 0, [], fun _ => []⟩]⟩ = .ok (d1, 0) ∧
      revAt d1 0 = 2 ^ 32 - 1) ∧
    (shmBufferDropSegment (freshSegState 4 (2 ^ 32 - 1))).rev = 0 ∧
    (shmBufferDropSegment (freshSegState 4 (2 ^ 32 - 1))).rev
      ≠ (2 ^ 32 - 1) + 1 ∧
    emptySlot.rev = 0 := by
  refine ⟨⟨_, rfl, by decide⟩, by decide, by decide, rfl⟩

/-- C7 (amended): along every reachable allocator directory state, a slot
revision is odd exactly when the slot is off the free list (parity equals
existence, the SHMBUF_SEGMENT_EXISTS test); creating a segment in a slot
advances that slot revision by one modulo `2 ^ 32` (the width of the
`pg_atomic_uint32` counter) to an odd value and leaves every other slot
untouched; and a free either leaves every slot revision unchanged or, when
the emptied segment is dropped, advances the freed slot revision by one
modulo `2 ^ 32` to an even value.  Because the counter wraps, revision
values recur after `2 ^ 31` create/drop cycles of a slot; no-reuse holds
only below the wrap (see the counterexample). -/
theorem revision_parity_and_mod_increment (d : Directory)
    (h : DirReachable d) :
    (∀ id, id < d.segs.length →
      (SHMBUF_SEGMENT_EXISTS (revAt d id) = true ↔ id ∉ d.freeList)) ∧
    (∀ d1 id, shmBufferCreateSegment d = .ok (d1, id) →
      revAt d1 id = (revAt d id + 1) % UINT32_MOD ∧ revAt d1 id % 2 = 1 ∧
      ∀ j, j ≠ id → revAt d1 j = revAt d j) ∧
    (∀ addr d1, shmbufFree d addr = .ok d1 →
      ∀ id, revAt d1 id = revAt d id ∨
        (revAt d1 id = (revAt d id + 1) % UINT32_MOD ∧
          revAt d1 id % 2 = 0)) := by
  have hInv := dirInv_reachable d h
  obtain ⟨hnf, hna, hfree, hodd, hdisj⟩ := hInv
  refine ⟨?_, ?_, ?_⟩
  · intro id hlt
    constructor
    · intro hex hmem
      obtain ⟨-, heven, -⟩ := hfree id hmem
      have h1 : revAt d id % 2 = 1 := of_decide_eq_true hex
      omega
    · intro hnot
      exact decide_eq_true (hodd id hlt hnot)
  · intro d1 id hcr
    obtain ⟨h1, h2, h3⟩ := createSegment_revAt d d1 id hcr
    refine ⟨h1, ?_, h3⟩
    rw [h1, mod_u32_parity]
    omega
  · intro addr d1 hf
    exact shmbufFree_revAt d addr d1 ⟨hnf, hna, hfree, hodd, hdisj⟩ hf

/-- Closed witness for the C7 theorem: the fresh two-slot directory is
reachable and its parity-existence conjunct holds there. -/
theorem revision_parity_and_mod_increment_witness :
    DirReachable (initDir 4 2) ∧
    (∀ id, id < (initDir 4 2).segs.length →
      (SHMBUF_SEGMENT_EXISTS (revAt (initDir 4 2) id) = true ↔
        id ∉ (initDir 4 2).freeList)) :=
  ⟨DirReachable.init 4 2,
   (revision_parity_and_mod_increment (initDir 4 2)
     (DirReachable.init 4 2)).1⟩

theorem eraseReq_eq_off (c c' : MChunk) (h : eraseReq c = eraseReq c') :
    c.off = c'.off := by
  cases c
  cases c'
  injection h with h1 h2 h3 h4 h5 h6

theorem eraseReq_eq_mclass (c c' : MChunk) (h : eraseReq c = eraseReq c') :
    c.mclass = c'.mclass := by
  cases c
  cases c'
  injection h with h1 h2 h3 h4 h5 h6

theorem eraseReq_eq_magic_head (c c' : MChunk)
    (h : eraseReq c = eraseReq c') : c.magic_head = c'.magic_head := by
  cases c
  cases c'
  injection h with h1 h2 h3 h4 h5 h6

theorem eraseReq_eq_magic_tail (c c' : MChunk)
    (h : eraseReq c = eraseReq c') : c.magic_tail = c'.magic_tail := by
  cases c
  cases c'
  injection h with h1 h2 h3 h4 h5 h6

theorem eraseReq_eq_linked (c c' : MChunk) (h : eraseReq c = eraseReq c') :
    c.linked = c'.linked := by
  cases c
  cases c'
  injection h with h1 h2 h3 h4 h5 h6

theorem eraseReq_congr_upd (k : ℕ) (c c' : MChunk)
    (h : eraseReq c = eraseReq c') :
    eraseReq { c with mclass := k } = eraseReq { c' with mclass := k } := by
  cases c
  cases c'
  injection h with h1 h2 h3 h4 h5 h6
  subst h1
  subst h4
  subst h5
  subst h6
  rfl

theorem eraseReq_congr_linked (b : Bool) (c c' : MChunk)
    (h : eraseReq c = eraseReq c') :
    eraseReq { c with linked := b } = eraseReq { c' with linked := b } := by
  cases c
  cases c'
  injection h with h1 h2 h3 h4 h5 h6
  subst h1
  subst h2
  subst h4
  subst h5
  rfl

theorem eraseReq_congr_stamp (r r' : ℕ) (c c' : MChunk)
    (h : eraseReq c = eraseReq c') :
    eraseReq { c with linked := false, required := r, magic_tail := SHMBUF_CHUNK_MAGIC_CODE }
      = eraseReq { c' with linked := false, required := r', magic_tail := SHMBUF_CHUNK_MAGIC_CODE } := by
  cases c
  cases c'
  injection h with h1 h2 h3 h4 h5 h6
  subst h1
  subst h2
  subst h4
  rfl

theorem chunkAt_eraseReq (o : ℕ) (cs : List MChunk) :
    ∀ (cs' : List MChunk), cs.map eraseReq = cs'.map eraseReq →
    (chunkAt cs o).map eraseReq = (chunkAt cs' o).map eraseReq := by
  induction cs with
  | nil =>
    intro cs' h
    cases cs' with
    | nil => rfl
    | cons c' t' => cases h
  | cons c t ih =>
    intro cs' h
    cases cs' with
    | nil => cases h
    | cons c' t' =>
      simp only [List.map] at h
      obtain ⟨hhd, htl⟩ := List.cons.inj h
      have hoff : c.off = c'.off := eraseReq_eq_off c c' hhd
      rw [chunkAt, chunkAt]
      by_cases ho : c'.off = o
      · rw [if_pos ho, if_pos (hoff.trans ho)]
        simp only [Option.map]
        rw [hhd]
      · rw [if_neg ho, if_neg (fun hx => ho (hoff ▸ hx))]
        exact ih t' htl

theorem setChunk_eraseReq (o : ℕ) (f g : MChunk → MChunk)
    (hfg : ∀ c c', eraseReq c = eraseReq c' → eraseReq (f c) = eraseReq (g c'))
    (cs : List MChunk) :
    ∀ (cs' : List MChunk), cs.map eraseReq = cs'.map eraseReq →
    (setChunk cs o f).map eraseReq = (setChunk cs' o g).map eraseReq := by
  induction cs with
  | nil =>
    intro cs' h
    cases cs' with
    | nil => rfl
    | cons c' t' => cases h
  | cons c t ih =>
    intro cs' h
    cases cs' with
    | nil => cases h
    | cons c' t' =>
      simp only [List.map] at h
      obtain ⟨hhd, htl⟩ := List.cons.inj h
      have hoff : c.off = c'.off := eraseReq_eq_off c c' hhd
      rw [setChunk, setChunk]
      simp only [List.map]
      rw [ih t' htl]
      by_cases ho : c'.off = o
      · rw [if_pos ho, if_pos (hoff.trans ho), hfg c c' hhd]
      · rw [if_neg ho, if_neg (fun hx => ho (hoff ▸ hx)), hhd]

theorem removeChunk_eraseReq (o : ℕ) (cs : List MChunk) :
    ∀ (cs' : List MChunk), cs.map eraseReq = cs'.map eraseReq →
    (removeChunk cs o).map eraseReq = (removeChunk cs' o).map eraseReq := by
  induction cs with
  | nil =>
    intro cs' h
    cases cs' with
    | nil => rfl
    | cons c' t' => cases h
  | cons c t ih =>
    intro cs' h
    cases cs' with
    | nil => cases h
    | cons c' t' =>
      simp only [List.map] at h
      obtain ⟨hhd, htl⟩ := List.cons.inj h
      have hoff : c.off = c'.off := eraseReq_eq_off c c' hhd
      rw [removeChunk, removeChunk]
      by_cases ho : c'.off = o
      · rw [if_pos ho, if_pos (hoff.trans ho)]
        exact ih t' htl
      · rw [if_neg ho, if_neg (fun hx => ho (hoff ▸ hx))]
        simp only [List.map]
        rw [ih t' htl, hhd]

theorem mergeLoop_eraseReq (S : ℕ) (fuel : ℕ) :
    ∀ (cs cs' : List MChunk) (fl : ℕ → List ℕ) (off m : ℕ),
    cs.map eraseReq = cs'.map eraseReq →
    mergeRel (mergeLoop S cs fl off m fuel)
      (mergeLoop S cs' fl off m fuel) := by
  induction fuel with
  | zero =>
    intro cs cs' fl off m h
    exact rfl
  | succ fuel ih =>
    intro cs cs' fl off m h
    rw [mergeLoop, mergeLoop]
    by_cases h1 : SHMBUF_CHUNKSZ_MAX_BIT < m
    · rw [if_pos h1, if_pos h1]
      exact ⟨h, rfl, rfl, rfl⟩
    · rw [if_neg h1, if_neg h1]
      cases htb : off.testBit m with
      | false =>
        rw [if_pos rfl, if_pos rfl]
        by_cases h2 : S ≤ off + 2 ^ m
        · rw [if_pos h2, if_pos h2]
          exact ⟨h, rfl, rfl, rfl⟩
        · rw [if_neg h2, if_neg h2]
          have hca := chunkAt_eraseReq (off + 2 ^ m) cs cs' h
          cases hx : chunkAt cs (off + 2 ^ m) with
          | none =>
            rw [hx] at hca
            cases hy : chunkAt cs' (off + 2 ^ m) with
            | none => exact ⟨h, rfl, rfl, rfl⟩
            | some bc' => rw [hy] at hca; cases hca
          | some bc =>
            rw [hx] at hca
            cases hy : chunkAt cs' (off + 2 ^ m) with
            | none => rw [hy] at hca; cases hca
            | some bc' =>
              rw [hy] at hca
              simp only []
              simp only [Option.map] at hca
              have hbce : eraseReq bc = eraseReq bc' := Option.some.inj hca
              have hmag : bc.magic_head = bc'.magic_head :=
                eraseReq_eq_magic_head bc bc' hbce
              have hmc : bc.mclass = bc'.mclass :=
                eraseReq_eq_mclass bc bc' hbce
              have hlk : bc.linked = bc'.linked :=
                eraseReq_eq_linked bc bc' hbce
              rw [hmag, hmc, hlk]
              by_cases hg : bc'.magic_head ≠ SHMBUF_CHUNK_MAGIC_CODE
              · rw [if_pos hg, if_pos hg]
                exact rfl
              · rw [if_neg hg, if_neg hg]
                by_cases hb : bc'.mclass ≠ m ∨ bc'.linked = false
                · rw [if_pos hb, if_pos hb]
                  exact ⟨h, rfl, rfl, rfl⟩
                · rw [if_neg hb, if_neg hb]
                  apply ih
                  exact setChunk_eraseReq off
                    (fun c => { c with mclass := m + 1 })
                    (fun c => { c with mclass := m + 1 })
                    (fun a a' ha => eraseReq_congr_upd (m + 1) a a' ha)
                    (removeChunk cs (off + 2 ^ m))
                    (removeChunk cs' (off + 2 ^ m))
                    (removeChunk_eraseReq (off + 2 ^ m) cs cs' h)
      | true =>
        rw [if_neg (by simp), if_neg (by simp)]
        have hca := chunkAt_eraseReq (off - 2 ^ m) cs cs' h
        cases hx : chunkAt cs (off - 2 ^ m) with
        | none =>
          rw [hx] at hca
          cases hy : chunkAt cs' (off - 2 ^ m) with
          | none => exact ⟨h, rfl, rfl, rfl⟩
          | some bc' => rw [hy] at hca; cases hca
        | some bc =>
          rw [hx] at hca
          cases hy : chunkAt cs' (off - 2 ^ m) with
          | none => rw [hy] at hca; cases hca
          | some bc' =>
            rw [hy] at hca
            simp only []
            simp only [Option.map] at hca
            have hbce : eraseReq bc = eraseReq bc' := Option.some.inj hca
            have hmag : bc.magic_head = bc'.magic_head :=
              eraseReq_eq_magic_head bc bc' hbce
            have hmc : bc.mclass = bc'.mclass :=
              eraseReq_eq_mclass bc bc' hbce
            have hlk : bc.linked = bc'.linked :=
              eraseReq_eq_linked bc bc' hbce
            rw [hmag, hmc, hlk]
            by_cases hg : bc'.magic_head ≠ SHMBUF_CHUNK_MAGIC_CODE
            · rw [if_pos hg, if_pos hg]
              exact rfl
            · rw [if_neg hg, if_neg hg]
              by_cases hb : bc'.mclass ≠ m ∨ bc'.linked = false
              · rw [if_pos hb, if_pos hb]
                exact ⟨h, rfl, rfl, rfl⟩
              · rw [if_neg hb, if_neg hb]
                apply ih
                exact setChunk_eraseReq (off - 2 ^ m)
                  (fun c => { c with mclass := m + 1 })
                  (fun c => { c with mclass := m + 1 })
                  (fun a a' ha => eraseReq_congr_upd (m + 1) a a' ha)
                  (removeChunk cs off)
                  (removeChunk cs' off)
                  (removeChunk_eraseReq off cs cs' h)

theorem freeChunk_eraseRel (S : ℕ) (sg sg' : SegState) (off : ℕ)
    (hch : sg.chunks.map eraseReq = sg'.chunks.map eraseReq)
    (hfl : sg.freeLists = sg'.freeLists)
    (hna : sg.num_actives = sg'.num_actives) :
    freeRel (shmBufferFreeChunk S sg off) (shmBufferFreeChunk S sg' off) := by
  rw [shmBufferFreeChunk, shmBufferFreeChunk, hfl, hna]
  have hca := chunkAt_eraseReq off sg.chunks sg'.chunks hch
  cases hx : chunkAt sg.chunks off with
  | none =>
    rw [hx] at hca
    cases hy : chunkAt sg'.chunks off with
    | none => exact rfl
    | some c' => rw [hy] at hca; cases hca
  | some c =>
    rw [hx] at hca
    cases hy : chunkAt sg'.chunks off with
    | none => rw [hy] at hca; cases hca
    | some c' =>
      rw [hy] at hca
      simp only []
      simp only [Option.map] at hca
      have hce : eraseReq c = eraseReq c' := Option.some.inj hca
      have hmc : c.mclass = c'.mclass := eraseReq_eq_mclass c c' hce
      have hmh : c.magic_head = c'.magic_head :=
        eraseReq_eq_magic_head c c' hce
      have hmt : c.magic_tail = c'.magic_tail :=
        eraseReq_eq_magic_tail c c' hce
      rw [hmc, hmh, hmt]
      by_cases hcnd : SHMBUF_CHUNKSZ_MIN_BIT ≤ c'.mclass ∧
          c'.mclass ≤ SHMBUF_CHUNKSZ_MAX_BIT ∧
          c'.magic_head = SHMBUF_CHUNK_MAGIC_CODE ∧
          c'.magic_tail = SHMBUF_CHUNK_MAGIC_CODE
      · rw [if_pos hcnd, if_pos hcnd]
        have hml := mergeLoop_eraseReq S 34 sg.chunks sg'.chunks
          sg'.freeLists off c'.mclass hch
        cases hu : mergeLoop S sg.chunks sg'.freeLists off c'.mclass 34 with
        | error e =>
          rw [hu] at hml
          cases hv : mergeLoop S sg'.chunks sg'.freeLists off c'.mclass 34 with
          | error e' =>
            rw [hv] at hml
            have hee : e = e' := hml
            subst hee
            exact rfl
          | ok q =>
            obtain ⟨cs1, fl1, o1, m1⟩ := q
            rw [hv] at hml
            exact False.elim hml
        | ok q =>
          obtain ⟨cs1, fl1, o1, m1⟩ := q
          rw [hu] at hml
          cases hv : mergeLoop S sg'.chunks sg'.freeLists off c'.mclass 34 with
          | error e' =>
            rw [hv] at hml
            exact False.elim hml
          | ok q' =>
            obtain ⟨cs1', fl1', o1', m1'⟩ := q'
            rw [hv] at hml
            have hml' : cs1.map eraseReq = cs1'.map eraseReq ∧ fl1 = fl1' ∧
                o1 = o1' ∧ m1 = m1' := hml
            obtain ⟨hcs1, hfl1, ho1, hm1⟩ := hml'
            subst hfl1
            subst ho1
            subst hm1
            simp only []
            by_cases hz : sg'.num_actives = 0
            · rw [if_pos hz, if_pos hz]
              exact rfl
            · rw [if_neg hz, if_neg hz]
              refine ⟨rfl, ?_, rfl, rfl⟩
              exact setChunk_eraseReq o1
                (fun c => { c with linked := true })
                (fun c => { c with linked := true })
                (fun a a' ha => eraseReq_congr_linked true a a' ha)
                cs1 cs1' hcs1
      · rw [if_neg hcnd, if_neg hcnd]
        exact rfl

theorem allocPopChunk_eraseRel (seg : SegState) (c r : ℕ) :
    allocRel (allocPopChunk seg c r) (allocPopChunk seg c 0) := by
  rw [allocPopChunk, allocPopChunk]
  cases hl : seg.freeLists c with
  | nil => exact rfl
  | cons o rest =>
    simp only []
    cases hb : chunkAt seg.chunks o with
    | none => exact rfl
    | some ch =>
      simp only []
      by_cases hcnd : ch.mclass = c ∧ ch.magic_head = SHMBUF_CHUNK_MAGIC_CODE
      · rw [if_pos hcnd, if_pos hcnd]
        refine ⟨rfl, ?_, rfl, rfl⟩
        exact setChunk_eraseReq o
          (fun x => { x with linked := false, required := r, magic_tail := SHMBUF_CHUNK_MAGIC_CODE })
          (fun x => { x with linked := false, required := 0, magic_tail := SHMBUF_CHUNK_MAGIC_CODE })
          (fun a a' ha => eraseReq_congr_stamp r 0 a a' ha)
          seg.chunks seg.chunks rfl
      · rw [if_neg hcnd, if_neg hcnd]
        exact rfl

theorem allocByClass_eraseRel (seg : SegState) (c r : ℕ) :
    allocRel (allocByClass seg c r) (allocByClass seg c 0) := by
  rw [allocByClass, allocByClass]
  by_cases h1 : SHMBUF_CHUNKSZ_MAX_BIT < c
  · rw [if_pos h1, if_pos h1]
    exact rfl
  · rw [if_neg h1, if_neg h1]
    cases hm : (if (seg.freeLists c).isEmpty
        then shmBufferSplitChunk seg (c + 1) 34
        else Except.ok (some seg)) with
    | error e => exact rfl
    | ok ro =>
      cases ro with
      | none => exact trivial
      | some seg' => exact allocPopChunk_eraseRel seg' c r

theorem isSingleFull_congr (k : ℕ) (cs cs' : List MChunk)
    (hch : cs.map eraseReq = cs'.map eraseReq) :
    isSingleFull k cs = isSingleFull k cs' := by
  cases cs with
  | nil =>
    cases cs' with
    | nil => rfl
    | cons y ys => cases hch
  | cons x xs =>
    cases cs' with
    | nil => cases hch
    | cons y ys =>
      simp only [List.map] at hch
      obtain ⟨hxy, htl⟩ := List.cons.inj hch
      cases xs with
      | nil =>
        cases ys with
        | nil =>
          have h1 : x.off = y.off := eraseReq_eq_off x y hxy
          have h2 : x.mclass = y.mclass := eraseReq_eq_mclass x y hxy
          have h3 : x.linked = y.linked := eraseReq_eq_linked x y hxy
          rw [isSingleFull, isSingleFull, h1, h2, h3]
        | cons z zs => simp only [List.map] at htl; cases htl
      | cons w ws =>
        cases ys with
        | nil => simp only [List.map] at htl; cases htl
        | cons z zs => rfl

theorem isFullFreeSeg_congr (k : ℕ) (T T' : SegState)
    (hch : T.chunks.map eraseReq = T'.chunks.map eraseReq)
    (hfl : T.freeLists = T'.freeLists)
    (hna : T.num_actives = T'.num_actives) :
    isFullFreeSeg k T = isFullFreeSeg k T' := by
  rw [isFullFreeSeg, isFullFreeSeg, hfl, hna,
    isSingleFull_congr k T.chunks T'.chunks hch]

theorem allocFromSegment_eq_byClass (seg : SegState) (n : ℕ) :
    shmBufferAllocChunkFromSegment seg n = allocByClass seg (chunkClassOf n) n :=
  rfl

theorem rtCheck_eq_rtCheckC (k n : ℕ) :
    rtCheck k n = rtCheckC k (chunkClassOf n) n := by
  rw [rtCheck, rtCheckC, allocFromSegment_eq_byClass]

theorem rtCheckC_req (k c r : ℕ) : rtCheckC k c r = rtCheckC k c 0 := by
  rw [rtCheckC, rtCheckC]
  have ha := allocByClass_eraseRel (freshSegState (2 ^ k) 1) c r
  cases hx : allocByClass (freshSegState (2 ^ k) 1) c r with
  | error e =>
    rw [hx] at ha
    cases hy : allocByClass (freshSegState (2 ^ k) 1) c 0 with
    | error e' => rfl
    | ok ro =>
      rw [hy] at ha
      cases ro with
      | none => exact False.elim ha
      | some p => obtain ⟨o', S'⟩ := p; exact False.elim ha
  | ok ro =>
    rw [hx] at ha
    cases ro with
    | none =>
      cases hy : allocByClass (freshSegState (2 ^ k) 1) c 0 with
      | error e' => rw [hy] at ha
      | ok ro' =>
        rw [hy] at ha
        cases ro' with
        | none => rfl
        | some p' => obtain ⟨o', S'⟩ := p'; exact False.elim ha
    | some p =>
      obtain ⟨o, S⟩ := p
      cases hy : allocByClass (freshSegState (2 ^ k) 1) c 0 with
      | error e' => rw [hy] at ha; exact False.elim ha
      | ok ro' =>
        rw [hy] at ha
        cases ro' with
        | none => exact False.elim ha
        | some p' =>
          obtain ⟨o', S'⟩ := p'
          have ha' : o = o' ∧ S.chunks.map eraseReq = S'.chunks.map eraseReq ∧
              S.freeLists = S'.freeLists ∧ S.num_actives = S'.num_actives := ha
          obtain ⟨ho, hch, hfl2, hna2⟩ := ha'
          subst ho
          simp only []
          have hf := freeChunk_eraseRel (2 ^ k) S S' o hch hfl2 hna2
          cases hu : shmBufferFreeChunk (2 ^ k) S o with
          | error e =>
            rw [hu] at hf
            cases hv : shmBufferFreeChunk (2 ^ k) S' o with
            | error e' => rfl
            | ok q =>
              obtain ⟨T', b'⟩ := q
              rw [hv] at hf
              exact False.elim hf
          | ok q =>
            obtain ⟨T, b⟩ := q
            rw [hu] at hf
            cases hv : shmBufferFreeChunk (2 ^ k) S' o with
            | error e' =>
              rw [hv] at hf
              exact False.elim hf
            | ok q' =>
              obtain ⟨T', b'⟩ := q'
              rw [hv] at hf
              have hf' : b = b' ∧ T.chunks.map eraseReq = T'.chunks.map eraseReq ∧
                  T.freeLists = T'.freeLists ∧ T.num_actives = T'.num_actives := hf
              obtain ⟨hb, hch2, hfl3, hna3⟩ := hf'
              simp only []
              rw [hb, isFullFreeSeg_congr k T T' hch2 hfl3 hna3]

theorem sibSeg_erase (m r1 r2 : ℕ) :
    (sibSeg m r1 r2).chunks.map eraseReq = (sibSeg m 0 0).chunks.map eraseReq :=
  rfl

theorem sibFree2_eraseRel (m r1 r2 oA oB : ℕ) :
    freeRel (sibFree2 m r1 r2 oA oB) (sibFree2 m 0 0 oA oB) := by
  rw [sibFree2, sibFree2]
  have h1 := freeChunk_eraseRel (2 ^ (m + 1)) (sibSeg m r1 r2) (sibSeg m 0 0)
    oA (sibSeg_erase m r1 r2) rfl rfl
  cases hx : shmBufferFreeChunk (2 ^ (m + 1)) (sibSeg m r1 r2) oA with
  | error e =>
    rw [hx] at h1
    cases hy : shmBufferFreeChunk (2 ^ (m + 1)) (sibSeg m 0 0) oA with
    | error e' =>
      rw [hy] at h1
      have hee : e = e' := h1
      subst hee
      exact rfl
    | ok q =>
      obtain ⟨T', b'⟩ := q
      rw [hy] at h1
      exact False.elim h1
  | ok q =>
    obtain ⟨s1, b1⟩ := q
    rw [hx] at h1
    cases hy : shmBufferFreeChunk (2 ^ (m + 1)) (sibSeg m 0 0) oA with
    | error e' =>
      rw [hy] at h1
      exact False.elim h1
    | ok q' =>
      obtain ⟨s1', b1'⟩ := q'
      rw [hy] at h1
      have h1' : b1 = b1' ∧ s1.chunks.map eraseReq = s1'.chunks.map eraseReq ∧
          s1.freeLists = s1'.freeLists ∧ s1.num_actives = s1'.num_actives := h1
      obtain ⟨-, hch, hfl2, hna2⟩ := h1'
      simp only []
      exact freeChunk_eraseRel (2 ^ (m + 1)) s1 s1' oB hch hfl2 hna2

theorem sib_exists (m r1 r2 : ℕ) (h0 : sibCheck0 m = true) :
    ∃ sA sB,
      sibFree2 m r1 r2 0 (2 ^ m) = .ok (sA, true) ∧
      sibFree2 m r1 r2 (2 ^ m) 0 = .ok (sB, true) ∧
      sA.chunks.map eraseReq = [sibMerged m] ∧
      sB.chunks.map eraseReq = [sibMerged m] ∧
      sA.num_actives = 0 ∧ sB.num_actives = 0 ∧
      sA.freeLists (m + 1) = [0] ∧
      ∀ j, j < 34 → sA.freeLists j = sB.freeLists j := by
  rw [sibCheck0] at h0
  have hA := sibFree2_eraseRel m r1 r2 0 (2 ^ m)
  have hB := sibFree2_eraseRel m r1 r2 (2 ^ m) 0
  cases hxa : sibFree2 m 0 0 0 (2 ^ m) with
  | error e =>
    rw [hxa] at h0
    cases h0
  | ok qa =>
    obtain ⟨sA0, bA0⟩ := qa
    rw [hxa] at h0 hA
    cases hxb : sibFree2 m 0 0 (2 ^ m) 0 with
    | error e =>
      rw [hxb] at h0
      cases h0
    | ok qb =>
      obtain ⟨sB0, bB0⟩ := qb
      rw [hxb] at h0 hB
      simp only [Bool.and_eq_true, beq_iff_eq, List.all_eq_true,
        List.mem_range] at h0
      obtain ⟨⟨⟨⟨⟨⟨⟨hbA, hbB⟩, hcA⟩, hcB⟩, hnA⟩, hnB⟩, hflA⟩, hflAB⟩ := h0
      cases hu : sibFree2 m r1 r2 0 (2 ^ m) with
      | error e =>
        rw [hu] at hA
        exact False.elim hA
      | ok qu =>
        obtain ⟨sA, bAx⟩ := qu
        rw [hu] at hA
        have hA' : bAx = bA0 ∧
            sA.chunks.map eraseReq = sA0.chunks.map eraseReq ∧
            sA.freeLists = sA0.freeLists ∧
            sA.num_actives = sA0.num_actives := hA
        obtain ⟨hbAx, hchA, hflA2, hnaA⟩ := hA'
        cases hv : sibFree2 m r1 r2 (2 ^ m) 0 with
        | error e =>
          rw [hv] at hB
          exact False.elim hB
        | ok qv =>
          obtain ⟨sB, bBx⟩ := qv
          rw [hv] at hB
          have hB' : bBx = bB0 ∧
              sB.chunks.map eraseReq = sB0.chunks.map eraseReq ∧
              sB.freeLists = sB0.freeLists ∧
              sB.num_actives = sB0.num_actives := hB
          obtain ⟨hbBx, hchB, hflB2, hnaB⟩ := hB'
          refine ⟨sA, sB, ?_, ?_, ?_, ?_, ?_, ?_, ?_, ?_⟩
          · rw [hbAx, hbA]
          · rw [hbBx, hbB]
          · exact hchA.trans hcA
          · exact hchB.trans hcB
          · exact hnaA.trans hnA
          · exact hnaB.trans hnB
          · rw [hflA2]
            exact hflA
          · intro j hj
            rw [hflA2, hflB2]
            exact hflAB j hj

/-- C8: on a segment consisting of a single maximal free chunk (class 32,
the maximum size class), allocating any admissible request size `n` (any
size whose padded class does not exceed the maximum) and then immediately
freeing the returned offset restores the segment to exactly one free
class-32 chunk at offset 0 with zero active chunks and only the class-32
free list populated (`rtCheck`); and the two sibling chunks produced by the
single split of a `2^(m+1)` segment, both allocated with arbitrary stored
request sizes, merge back into their class-`m+1` parent whichever is freed
first: both orders succeed reporting the segment empty and end in the same
state - the single merged parent chunk, zero active chunks, the parent
alone on its free list, and identical free-list tables. -/
theorem alloc_free_roundtrip_restores_segment :
    (∀ n, chunkClassOf n ≤ SHMBUF_CHUNKSZ_MAX_BIT → rtCheck 32 n = true) ∧
    (∀ m r1 r2, SHMBUF_CHUNKSZ_MIN_BIT ≤ m → m + 1 ≤ SHMBUF_CHUNKSZ_MAX_BIT →
      ∃ sA sB,
        sibFree2 m r1 r2 0 (2 ^ m) = .ok (sA, true) ∧
        sibFree2 m r1 r2 (2 ^ m) 0 = .ok (sB, true) ∧
        sA.chunks.map eraseReq = [sibMerged m] ∧
        sB.chunks.map eraseReq = [sibMerged m] ∧
        sA.num_actives = 0 ∧ sB.num_actives = 0 ∧
        sA.freeLists (m + 1) = [0] ∧
        ∀ j, j < 34 → sA.freeLists j = sB.freeLists j) := by
  constructor
  · intro n hle
    have h7 := chunkClassOf_min n
    rw [MIN_BIT_eq] at h7
    rw [MAX_BIT_eq] at hle
    rw [rtCheck_eq_rtCheckC, rtCheckC_req]
    obtain ⟨c, hc⟩ : ∃ c, chunkClassOf n = c := ⟨_, rfl⟩
    rw [hc] at h7 hle ⊢
    interval_cases c <;> decide
  · intro m r1 r2 h7 hm
    apply sib_exists
    rw [MIN_BIT_eq] at h7
    rw [MAX_BIT_eq] at hm
    have hm' : m ≤ 31 := by omega
    interval_cases m <;> decide

/-- Closed witness for the C8 theorem: a 4096-byte request (class 13) on
the maximal segment, and the class-9 sibling pair with stored request
sizes 5 and 6. -/
theorem alloc_free_roundtrip_restores_segment_witness :
    rtCheck 32 4096 = true ∧
    (∃ sA sB,
      sibFree2 9 5 6 0 (2 ^ 9) = .ok (sA, true) ∧
      sibFree2 9 5 6 (2 ^ 9) 0 = .ok (sB, true) ∧
      sA.chunks.map eraseReq = [sibMerged 9] ∧
      sB.chunks.map eraseReq = [sibMerged 9] ∧
      sA.num_actives = 0 ∧ sB.num_actives = 0 ∧
      sA.freeLists (9 + 1) = [0] ∧
      ∀ j, j < 34 → sA.freeLists j = sB.freeLists j) :=
  ⟨alloc_free_roundtrip_restores_segment.1 4096 (by decide),
   alloc_free_roundtrip_restores_segment.2 9 5 6 (by decide) (by decide)⟩
